import Mathlib

/-!
Verification development for `triage.py`, a crash-triage driver that replays
fuzzer-produced inputs under a debugger, parses the resulting `!exploitable`
reports, groups equal crash hashes into directories and sorts the groups by
register stability and merged severity.

The Python source is shallowly embedded:

* Python strings are Lean `String` (in this toolchain a wrapper around
  `List Char`); Python's negative-index slicing and `str.find`/`str.rfind`
  (which return `-1` on failure) are modelled by `pyTake`, `pyDrop`,
  `pyRfindChar` and `pyFindSub` over `Int` indices.
* The filesystem is modelled twice, at the granularity each function needs:
  a tree of named entries (`Entry`) for the recursive directory walks
  (`FindHashGroupPath`, `CleanupFiles`), and a flat store of
  component-path lists (`FS`) for `MoveFile`, whose source and destination
  live in the same tree.
* `os.path.isdir(file)` on a bare name resolves against the process's
  current working directory, not against the directory being listed; this
  is modelled by an explicit `cwdIsDir : String → Bool` oracle.
* Loops that retry filesystem operations until a transient lock clears
  (`while os.path.exists(...)` around `shutil.move`/`os.remove`) are
  modelled as the single successful operation.
* `hashlib.md5(...).hexdigest()` is an external hash; it is passed in as an
  explicit function argument `md5 : String → String`.
-/

/-! Section: Python string primitives -/

/-- Convert a Python slice index (possibly negative) into a `Nat` index for a
string of length `len`: negative indices count from the end and clamp at `0`. -/
def pyIdx (len : Nat) (i : Int) : Nat :=
  (if i < 0 then (len : Int) + i else i).toNat

/-- Python `s[:i]` (with clamping, negative indices allowed). -/
def pyTake (s : String) (i : Int) : String :=
  String.mk (s.data.take (pyIdx s.data.length i))

/-- Python `s[i:]` (with clamping, negative indices allowed). -/
def pyDrop (s : String) (i : Int) : String :=
  String.mk (s.data.drop (pyIdx s.data.length i))

/-- Index of the last occurrence of `c`, if any. -/
def lastIdxOf (c : Char) : List Char → Option Nat
  | [] => none
  | a :: l =>
    match lastIdxOf c l with
    | some k => some (k + 1)
    | none => if a = c then some 0 else none

/-- Python `s.rfind(c)` for a single character: index of the last occurrence,
`-1` if absent. -/
def pyRfindChar (s : String) (c : Char) : Int :=
  match lastIdxOf c s.data with
  | none => -1
  | some k => (k : Int)

/-- First index at which `sub` occurs as a contiguous sublist, if any. -/
def firstInfixIdx (sub : List Char) : List Char → Option Nat
  | [] => if sub = [] then some 0 else none
  | a :: t => if sub.isPrefixOf (a :: t) then some 0 else (firstInfixIdx sub t).map (· + 1)

/-- Python `s.find(sub)`: lowest index where `sub` occurs, `-1` if absent. -/
def pyFindSub (s sub : String) : Int :=
  match firstInfixIdx sub.data s.data with
  | none => -1
  | some k => (k : Int)

/-- Python `sub in s`: substring containment. -/
def pyContains (s sub : String) : Bool :=
  (firstInfixIdx sub.data s.data).isSome

/-- Python `s.endswith(suffix)`. -/
def pyEndsWith (s suffix : String) : Bool :=
  suffix.data == s.data.drop (s.data.length - suffix.data.length)

/-- Model of `os.sep` (a single separator character; the script runs on Windows but
never depends on the character's identity). -/
def osSepC : Char := '/'

/-- Model of `os.sep` as a string, for path concatenation. -/
def osSep : String := "/"

/-- Python `p[p.rfind(os.sep) + 1:]`, the idiom the script uses everywhere to
take the basename of a path. -/
def pyBasename (s : String) : String :=
  pyDrop s (pyRfindChar s osSepC + 1)

/-! Subsection: Lemmas about the string primitives -/

theorem pyIdx_ofNat (len : Nat) (n : Nat) : pyIdx len (n : Int) = n := by
  have h : ¬ ((n : Int) < 0) := by omega
  simp [pyIdx, h]

theorem lastIdxOf_eq_none {c : Char} {l : List Char} (h : c ∉ l) :
    lastIdxOf c l = none := by
  induction l with
  | nil => rfl
  | cons a t ih =>
    simp only [List.mem_cons, not_or] at h
    simp [lastIdxOf, ih h.2, Ne.symm h.1]

theorem lastIdxOf_append_cons {c : Char} (a : List Char) {b : List Char}
    (hb : c ∉ b) : lastIdxOf c (a ++ c :: b) = some a.length := by
  induction a with
  | nil => simp [lastIdxOf, lastIdxOf_eq_none hb]
  | cons x t ih => simp [lastIdxOf, ih]

/-- Python `rfind` for a character that does not occur returns `-1`. -/
theorem pyRfindChar_neg {s : String} {c : Char} (h : c ∉ s.data) :
    pyRfindChar s c = -1 := by
  simp [pyRfindChar, lastIdxOf_eq_none h]

/-- Python `rfind` finds the last occurrence: if `s = a ++ c ++ b` with `c ∉ b`,
the result is `a.length`. -/
theorem pyRfindChar_append {a b : List Char} {c : Char} (hb : c ∉ b) :
    pyRfindChar (String.mk (a ++ c :: b)) c = (a.length : Int) := by
  simp [pyRfindChar, lastIdxOf_append_cons a hb]

/-! Section: Injectivity of `Nat.repr`

The collision renamer of `MoveFile` builds names containing `str(dup)`; to
reason about it we characterise `Nat.repr` by a structurally recursive digit
function and prove it injective. -/

/-- Structural characterisation of the digit list produced by
`Nat.toDigits 10`. -/
def natChars (n : Nat) : List Char :=
  if n < 10 then [Nat.digitChar n]
  else natChars (n / 10) ++ [Nat.digitChar (n % 10)]
decreasing_by exact Nat.div_lt_self (by omega) (by omega)

theorem natChars_lt {n : Nat} (h : n < 10) : natChars n = [Nat.digitChar n] := by
  rw [natChars, if_pos h]

theorem natChars_ge {n : Nat} (h : ¬ n < 10) :
    natChars n = natChars (n / 10) ++ [Nat.digitChar (n % 10)] := by
  rw [natChars, if_neg h]

theorem natChars_ne_nil (n : Nat) : natChars n ≠ [] := by
  by_cases h : n < 10
  · rw [natChars_lt h]; simp
  · rw [natChars_ge h]; simp

theorem toDigitsCore_append :
    ∀ (fuel n : Nat) (ds : List Char),
      Nat.toDigitsCore 10 fuel n ds = Nat.toDigitsCore 10 fuel n [] ++ ds := by
  intro fuel
  induction fuel with
  | zero => intro n ds; rfl
  | succ fuel ih =>
    intro n ds
    simp only [Nat.toDigitsCore]
    by_cases h : n / 10 = 0
    · simp [h]
    · simp only [h, if_false]
      rw [ih (n / 10) (Nat.digitChar (n % 10) :: ds),
        ih (n / 10) [Nat.digitChar (n % 10)], List.append_assoc]
      rfl

theorem toDigitsCore_eq_natChars :
    ∀ (fuel n : Nat), n < fuel → Nat.toDigitsCore 10 fuel n [] = natChars n := by
  intro fuel
  induction fuel with
  | zero => intro n h; omega
  | succ fuel ih =>
    intro n h
    simp only [Nat.toDigitsCore]
    by_cases h10 : n / 10 = 0
    · have hn : n < 10 := by omega
      have hmod : n % 10 = n := Nat.mod_eq_of_lt hn
      rw [if_pos h10, natChars_lt hn, hmod]
    · have hge : 10 ≤ n := by
        by_contra hc
        exact h10 (Nat.div_eq_of_lt (by omega))
      have hdiv : n / 10 < fuel := by
        have := Nat.div_lt_self (by omega : 0 < n) (by omega : 1 < 10)
        omega
      rw [if_neg h10, toDigitsCore_append, ih (n / 10) hdiv,
        natChars_ge (by omega : ¬ n < 10)]

theorem digitChar_inj_fin :
    ∀ a b : Fin 10, Nat.digitChar a.val = Nat.digitChar b.val → a = b := by decide

theorem digitChar_inj_lt {a b : Nat} (ha : a < 10) (hb : b < 10)
    (h : Nat.digitChar a = Nat.digitChar b) : a = b := by
  have := digitChar_inj_fin ⟨a, ha⟩ ⟨b, hb⟩ h
  exact congrArg Fin.val this

theorem natChars_inj : ∀ m n : Nat, natChars m = natChars n → m = n := by
  intro m
  induction m using Nat.strong_induction_on with
  | _ m ih =>
    intro n h
    by_cases hm : m < 10 <;> by_cases hn : n < 10
    · rw [natChars_lt hm, natChars_lt hn] at h
      exact digitChar_inj_lt hm hn (by injection h)
    · rw [natChars_lt hm, natChars_ge hn] at h
      have h1 : (1 : Nat) = (natChars (n / 10)).length + 1 := by
        have := congrArg List.length h
        simpa using this
      have := List.length_pos.mpr (natChars_ne_nil (n / 10))
      omega
    · rw [natChars_ge hm, natChars_lt hn] at h
      have h1 : (natChars (m / 10)).length + 1 = 1 := by
        have := congrArg List.length h
        simpa using this
      have := List.length_pos.mpr (natChars_ne_nil (m / 10))
      omega
    · rw [natChars_ge hm, natChars_ge hn] at h
      have hlen : ([Nat.digitChar (m % 10)] : List Char).length =
          ([Nat.digitChar (n % 10)] : List Char).length := rfl
      obtain ⟨h1, h2⟩ := List.append_inj' h hlen
      have hdiv : m / 10 = n / 10 :=
        ih (m / 10) (Nat.div_lt_self (by omega) (by omega)) _ h1
      have hmod : m % 10 = n % 10 := by
        have hc : Nat.digitChar (m % 10) = Nat.digitChar (n % 10) := by injection h2
        exact digitChar_inj_lt (Nat.mod_lt _ (by omega)) (Nat.mod_lt _ (by omega)) hc
      omega

theorem repr_data (n : Nat) : (Nat.repr n).data = natChars n := by
  show (List.asString (Nat.toDigits 10 n)).data = natChars n
  show Nat.toDigits 10 n = natChars n
  exact toDigitsCore_eq_natChars (n + 1) n (Nat.lt_succ_self n)

theorem repr_injective : ∀ m n : Nat, Nat.repr m = Nat.repr n → m = n := by
  intro m n h
  exact natChars_inj m n (by rw [← repr_data, ← repr_data, h])

theorem repr_ne_nil (n : Nat) : (Nat.repr n).data ≠ [] := by
  rw [repr_data]; exact natChars_ne_nil n

/-! Section: `MoveFile`, file branch: the no-overwrite collision rename

`triage.py` lines 440-451.  Once the effective target is known
(`destination`, a full path string), the code renames on collision by
inserting `_(<n>)` before the last `.` of the path string
(`destination[:destination.rfind(".")] + "_(" + str(dup) + ")" +
destination[destination.rfind("."):]`), incrementing `n` from 1 until the
name is free.  `os.path.exists` is modelled by membership in the (finite)
list of paths that currently exist. -/

/-- The candidate name produced for collision counter `dup`
(`triage.py` lines 444-446). -/
def dupName (destination : String) (dup : Nat) : String :=
  pyTake destination (pyRfindChar destination '.') ++ "_(" ++ Nat.repr dup ++ ")" ++
    pyDrop destination (pyRfindChar destination '.')

theorem dupName_data (destination : String) (dup : Nat) :
    (dupName destination dup).data =
      (pyTake destination (pyRfindChar destination '.')).data ++
        ('_' :: '(' :: (Nat.repr dup).data) ++ (')' ::
        (pyDrop destination (pyRfindChar destination '.')).data) := by
  simp [dupName, String.data_append]

theorem dupName_inj {destination : String} {i j : Nat}
    (h : dupName destination i = dupName destination j) : i = j := by
  have hd := congrArg String.data h
  rw [dupName_data, dupName_data] at hd
  have h1 := List.append_cancel_left (List.append_cancel_right hd)
  simp only [List.cons.injEq, true_and] at h1
  exact repr_injective i j (congrArg String.mk h1)

theorem pyTake_append_pyDrop (s : String) (i : Int) :
    (pyTake s i).data ++ (pyDrop s i).data = s.data := by
  simp [pyTake, pyDrop]

theorem dupName_length (destination : String) (dup : Nat) :
    (dupName destination dup).data.length =
      destination.data.length + 3 + (Nat.repr dup).data.length := by
  rw [dupName_data]
  simp only [List.length_append, List.length_cons]
  have := congrArg List.length (pyTake_append_pyDrop destination
    (pyRfindChar destination '.'))
  simp only [List.length_append] at this
  omega

theorem dupName_ne_self (destination : String) (dup : Nat) :
    dupName destination dup ≠ destination := by
  intro h
  have := congrArg (fun s => s.data.length) h
  simp only [dupName_length] at this
  have := List.length_pos.mpr (repr_ne_nil dup)
  omega

/-- The collision loop of lines 443-445 terminates: some counter value is
free, because the candidate names are pairwise distinct and only finitely
many paths exist. -/
theorem dupFreeExists (ex : List String) (destination : String) :
    ∃ n, 0 < n ∧ dupName destination n ∉ ex := by
  by_contra hc
  push_neg at hc
  have hmem : ∀ k : Nat, dupName destination (k + 1) ∈ ex := fun k =>
    hc (k + 1) (Nat.succ_pos k)
  have hinj : Function.Injective fun k : Nat => dupName destination (k + 1) := by
    intro a b hab
    have := dupName_inj hab
    omega
  have hnd : ((List.range (ex.length + 1)).map
      fun k => dupName destination (k + 1)).Nodup :=
    (List.nodup_range _).map hinj
  have hsub : ((List.range (ex.length + 1)).map
      fun k => dupName destination (k + 1)) ⊆ ex := by
    intro q hq
    obtain ⟨k, _, rfl⟩ := List.mem_map.mp hq
    exact hmem k
  have := (List.subperm_of_subset hnd hsub).length_le
  simp at this

/-- Value of `dup` after the `while` loop of lines 443-445: the least
positive counter whose candidate name does not yet exist. -/
def resolveDup (ex : List String) (destination : String) : Nat :=
  Nat.find (dupFreeExists ex destination)

/-- The effective path a single (non-directory) `MoveFile` writes to, given
the set `ex` of existing paths and the effective target `destination`
(`triage.py` lines 442-446): the target itself if free, otherwise the first
free `_(<n>)` variant. -/
def moveDestination (ex : List String) (destination : String) : String :=
  if destination ∈ ex then dupName destination (resolveDup ex destination)
  else destination

/-- State of the destination directory after `n` successive single-file
`MoveFile` calls whose effective target is the same path `dest`, starting
from existing paths `ex`: each call adds the path it wrote to. -/
def moveSeq (dest : String) (ex : List String) : Nat → List String
  | 0 => ex
  | k + 1 => moveDestination (moveSeq dest ex k) dest :: moveSeq dest ex k

/-- The name the `k`-th arriving file (0-based) ends up with, per the spec's
collision-order scenario. -/
def arrivalName (dest : String) : Nat → String
  | 0 => dest
  | k + 1 => dupName dest (k + 1)

theorem arrivalName_inj {dest : String} {i j : Nat}
    (h : arrivalName dest i = arrivalName dest j) : i = j := by
  match i, j with
  | 0, 0 => rfl
  | 0, j + 1 => exact absurd h.symm (dupName_ne_self dest (j + 1))
  | i + 1, 0 => exact absurd h (dupName_ne_self dest (i + 1))
  | i + 1, j + 1 => simpa using dupName_inj (i := i + 1) (j := j + 1) h

theorem string_eq_of_data {s t : String} (h : s.data = t.data) : s = t := by
  cases s
  cases t
  exact congrArg String.mk h

theorem pyTake_data_ofNat (s : String) (n : Nat) :
    (pyTake s (n : Int)).data = s.data.take n := by
  simp [pyTake, pyIdx_ofNat]

theorem pyDrop_data_ofNat (s : String) (n : Nat) :
    (pyDrop s (n : Int)).data = s.data.drop n := by
  simp [pyDrop, pyIdx_ofNat]

theorem pyRfindChar_eq {s : String} {a b : List Char} {c : Char}
    (hs : s.data = a ++ c :: b) (hb : c ∉ b) :
    pyRfindChar s c = (a.length : Int) := by
  unfold pyRfindChar
  rw [hs, lastIdxOf_append_cons a hb]

/-- When the effective target has an extension (its last `.` separates
`stem` from a dot-free `ext`), the `_(<n>)` disambiguator lands right
before that extension. -/
theorem dupName_of_ext {stem ext : String} (hext : '.' ∉ ext.data) (n : Nat) :
    dupName (stem ++ "." ++ ext) n = stem ++ "_(" ++ Nat.repr n ++ ")." ++ ext := by
  have hdata : (stem ++ "." ++ ext).data = stem.data ++ '.' :: ext.data := by
    simp [String.data_append]
  have hr : pyRfindChar (stem ++ "." ++ ext) '.' = (stem.data.length : Int) :=
    pyRfindChar_eq hdata hext
  apply string_eq_of_data
  rw [dupName_data, hr]
  have ht : (pyTake (stem ++ "." ++ ext) (stem.data.length : Int)).data = stem.data := by
    rw [pyTake_data_ofNat, hdata]
    exact List.take_left' rfl
  have hd : (pyDrop (stem ++ "." ++ ext) (stem.data.length : Int)).data =
      '.' :: ext.data := by
    rw [pyDrop_data_ofNat, hdata]
    exact List.drop_left' rfl
  rw [ht, hd]
  simp [String.data_append]

theorem mem_moveSeq_iff {dest : String} {ex : List String} {N : Nat} {q : String}
    (h : moveSeq dest ex N = ((List.range N).map (arrivalName dest)).reverse ++ ex) :
    q ∈ moveSeq dest ex N ↔ (∃ i < N, q = arrivalName dest i) ∨ q ∈ ex := by
  rw [h]
  simp only [List.mem_append, List.mem_reverse, List.mem_map, List.mem_range]
  constructor
  · rintro (⟨i, hi, rfl⟩ | hq)
    · exact Or.inl ⟨i, hi, rfl⟩
    · exact Or.inr hq
  · rintro (⟨i, hi, rfl⟩ | hq)
    · exact Or.inl ⟨i, hi, rfl⟩
    · exact Or.inr hq

/-- One pass of the state invariant: each successive move lands on the next
arrival name. -/
theorem moveSeq_eq (dest : String) (ex : List String)
    (h0 : dest ∉ ex) (hdup : ∀ n, dupName dest n ∉ ex) :
    ∀ N, moveSeq dest ex N = ((List.range N).map (arrivalName dest)).reverse ++ ex := by
  intro N
  induction N with
  | zero => simp [moveSeq]
  | succ k ih =>
    have hstep : moveDestination (moveSeq dest ex k) dest = arrivalName dest k := by
      match k with
      | 0 =>
        have : dest ∉ moveSeq dest ex 0 := h0
        simp only [moveSeq] at this ⊢
        rw [moveDestination, if_neg this]
        rfl
      | j + 1 =>
        have hmem : dest ∈ moveSeq dest ex (j + 1) := by
          rw [mem_moveSeq_iff ih]
          exact Or.inl ⟨0, Nat.succ_pos j, rfl⟩
        rw [moveDestination, if_pos hmem]
        have hfind : resolveDup (moveSeq dest ex (j + 1)) dest = j + 1 := by
          rw [resolveDup, Nat.find_eq_iff]
          refine ⟨⟨Nat.succ_pos j, ?_⟩, ?_⟩
          · rw [mem_moveSeq_iff ih]
            rintro (⟨i, hi, hqe⟩ | hq)
            · match i, hi, hqe with
              | 0, _, hqe => exact dupName_ne_self dest (j + 1) hqe
              | i + 1, hi, hqe =>
                have hqe' : dupName dest (j + 1) = dupName dest (i + 1) := hqe
                have := dupName_inj hqe'
                omega
            · exact hdup (j + 1) hq
          · intro m hm hpm
            obtain ⟨hm0, hnm⟩ := hpm
            apply hnm
            rw [mem_moveSeq_iff ih]
            refine Or.inl ⟨m, hm, ?_⟩
            match m, hm0 with
            | m + 1, _ => rfl
        rw [hfind]
        rfl
    rw [moveSeq, hstep, ih, List.range_succ]
    simp

/-- C5: Moving `N` files that share one basename-with-extension into the
same destination directory (all `MoveFile` calls computing the same
effective target `stem ++ "." ++ ext`, the directory initially holding
neither that name nor any `_(<n>)` variant of it) yields `N` distinct
files, overwrites nothing that existed before, and renames the later
arrivals `_(1)`, `_(2)`, ... in collision order, the disambiguator inserted
right before the file extension. -/
theorem moveFile_collision_sequence (stem ext : String) (ex : List String) (N : Nat)
    (hext : '.' ∉ ext.data) (h0 : stem ++ "." ++ ext ∉ ex)
    (hdup : ∀ n, dupName (stem ++ "." ++ ext) n ∉ ex) :
    moveSeq (stem ++ "." ++ ext) ex N =
      ((List.range N).map (arrivalName (stem ++ "." ++ ext))).reverse ++ ex ∧
    ((List.range N).map (arrivalName (stem ++ "." ++ ext))).Nodup ∧
    arrivalName (stem ++ "." ++ ext) 0 = stem ++ "." ++ ext ∧
    ∀ k, arrivalName (stem ++ "." ++ ext) (k + 1) =
      stem ++ "_(" ++ Nat.repr (k + 1) ++ ")." ++ ext := by
  refine ⟨moveSeq_eq _ ex h0 hdup N, ?_, rfl, fun k => dupName_of_ext hext (k + 1)⟩
  exact (List.nodup_range N).map fun a b h => arrivalName_inj h

/-- Witness for C5: three files named `crash.txt` arriving at one
destination end up as `crash.txt`, `crash_(1).txt`, `crash_(2).txt`
(most recent first in the state list). -/
theorem moveFile_collision_sequence_witness :
    moveSeq ("crash" ++ "." ++ "txt") [] 3 =
      ["crash_(2).txt", "crash_(1).txt", "crash.txt"] := by
  obtain ⟨h1, _, h3, h4⟩ :=
    moveFile_collision_sequence "crash" "txt" [] 3 (by decide) (by simp)
      (fun n => by simp)
  rw [h1]
  have e1 := h4 0
  have e2 := h4 1
  have er1 : Nat.repr 1 = "1" := by decide
  have er2 : Nat.repr 2 = "2" := by decide
  rw [er1] at e1
  rw [er2] at e2
  simp only [List.range_succ, List.range_zero, List.map_append, List.map_cons,
    List.map_nil, List.reverse_append, List.reverse_cons, List.reverse_nil]
  rw [h3, e1, e2]
  decide

theorem drop_length_sub_one {l : List Char} (h : l ≠ []) :
    l.drop (l.length - 1) = [l.getLast h] := by
  have h2 : l.dropLast ++ [l.getLast h] = l := List.dropLast_append_getLast h
  calc l.drop (l.length - 1)
      = (l.dropLast ++ [l.getLast h]).drop (l.length - 1) := by rw [h2]
    _ = [l.getLast h] := List.drop_left' (by rw [List.length_dropLast])

/-- C9: When the effective target exists and its path string contains no
`.`, `rfind(".")` returns `-1`, so the collision rename still produces a
fresh name (no overwrite), but the `_(<n>)` disambiguator is spliced in
immediately before the final character of the path instead of being
appended, so the original basename is not preserved. -/
theorem moveFile_dotless_rename (ex : List String) (destination : String)
    (hdot : '.' ∉ destination.data) (hmem : destination ∈ ex)
    (hne : destination.data ≠ []) :
    ∃ k, 1 ≤ k ∧
      moveDestination ex destination =
        String.mk (destination.data.dropLast ++
          '_' :: '(' :: (Nat.repr k).data ++ ')' :: [destination.data.getLast hne]) ∧
      moveDestination ex destination ∉ ex ∧
      moveDestination ex destination ≠ destination := by
  have hr : pyRfindChar destination '.' = -1 := pyRfindChar_neg hdot
  have hspec := Nat.find_spec (dupFreeExists ex destination)
  have hmd : moveDestination ex destination =
      dupName destination (resolveDup ex destination) := by
    rw [moveDestination, if_pos hmem]
  refine ⟨resolveDup ex destination, hspec.1, ?_, ?_, ?_⟩
  · rw [hmd]
    apply string_eq_of_data
    rw [dupName_data, hr]
    have hidx : pyIdx destination.data.length (-1) = destination.data.length - 1 := by
      simp only [pyIdx, if_pos (by norm_num : (-1 : Int) < 0)]
      omega
    have ht : (pyTake destination (-1)).data = destination.data.dropLast := by
      simp only [pyTake, hidx]
      exact (List.dropLast_eq_take destination.data).symm
    have hd : (pyDrop destination (-1)).data = [destination.data.getLast hne] := by
      simp only [pyDrop, hidx]
      exact drop_length_sub_one hne
    rw [ht, hd]
  · rw [hmd]
    exact hspec.2
  · rw [hmd]
    exact dupName_ne_self destination _

/-- Witness for C9: a second file named `crash` (no extension) colliding at
the same target is renamed `cras_(1)h`, which overwrites nothing. -/
theorem moveFile_dotless_rename_witness :
    moveDestination ["crash"] "crash" = "cras_(1)h" ∧
      moveDestination ["crash"] "crash" ∉ ["crash"] := by
  obtain ⟨k, _, _, hnin, _⟩ :=
    moveFile_dotless_rename ["crash"] "crash" (by decide) (by decide) (by decide)
  refine ⟨?_, hnin⟩
  have hfind : resolveDup ["crash"] "crash" = 1 := by
    rw [resolveDup, Nat.find_eq_iff]
    exact ⟨by decide, by decide⟩
  rw [moveDestination, if_pos (by decide : ("crash" : String) ∈ ["crash"]), hfind]
  decide

/-! Section: `SortHashDir`: severity merge

`triage.py` lines 399-410: the running "best" severity starts at the first
report's label and is updated by an `if`/`elif` chain; the loop exits early
once the best is `EXPLOITABLE`. -/

/-- One iteration body of the severity loop (the `if`/`elif` chain of
lines 401-410). -/
def mergeStep (best exp : String) : String :=
  if exp = "EXPLOITABLE" then exp
  else if exp = "PROBABLY EXPLOITABLE" then exp
  else if exp = "UNKNOWN" ∧ best ≠ "PROBABLY EXPLOITABLE" then exp
  else if exp = "PROBABLY NOT EXPLOITABLE" ∧ best ≠ "PROBABLY EXPLOITABLE" ∧
      best ≠ "UNKNOWN" then exp
  else best

/-- The severity loop of lines 400-410, including the `break` when the
current best is already `EXPLOITABLE`. -/
def mergeLoop (best : String) : List String → String
  | [] => best
  | exp :: rest =>
    if best = "EXPLOITABLE" then best else mergeLoop (mergeStep best exp) rest

/-- Variable `best` as computed by lines 399-410 for a list of labels: seeded with
`exploitability[0]` (an `IndexError`, modelled as `none`, if the list is
empty) and folded over the whole list. -/
def mergeBest (labels : List String) : Option String :=
  match labels with
  | [] => none
  | l0 :: _ => some (mergeLoop l0 labels)

/-- The total severity order of spec §3, as a rank:
`EXPLOITABLE > PROBABLY EXPLOITABLE > UNKNOWN > PROBABLY NOT EXPLOITABLE`. -/
def sevRank (s : String) : Nat :=
  if s = "EXPLOITABLE" then 3
  else if s = "PROBABLY EXPLOITABLE" then 2
  else if s = "UNKNOWN" then 1
  else 0

/-- The four severity labels emitted by `!exploitable`. -/
def sevLabels : List String :=
  ["EXPLOITABLE", "PROBABLY EXPLOITABLE", "UNKNOWN", "PROBABLY NOT EXPLOITABLE"]

theorem sevRank_le_three (s : String) : sevRank s ≤ 3 := by
  unfold sevRank
  split_ifs <;> omega

theorem sevRank_le_two {s : String} (h : s ≠ "EXPLOITABLE") : sevRank s ≤ 2 := by
  unfold sevRank
  rw [if_neg h]
  split_ifs <;> omega

theorem sevRank_le_one {s : String} (h : s ≠ "EXPLOITABLE")
    (h2 : s ≠ "PROBABLY EXPLOITABLE") : sevRank s ≤ 1 := by
  unfold sevRank
  rw [if_neg h, if_neg h2]
  split_ifs <;> omega

theorem sevRank_eq_zero {s : String} (h : s ≠ "EXPLOITABLE")
    (h2 : s ≠ "PROBABLY EXPLOITABLE") (h3 : s ≠ "UNKNOWN") : sevRank s = 0 := by
  unfold sevRank
  rw [if_neg h, if_neg h2, if_neg h3]

theorem mergeStep_le (best exp : String) (hbe : best ≠ "EXPLOITABLE") :
    sevRank best ≤ sevRank (mergeStep best exp) ∧
      sevRank exp ≤ sevRank (mergeStep best exp) ∧
      (mergeStep best exp = best ∨ mergeStep best exp = exp) := by
  unfold mergeStep
  split_ifs with h1 h2 h3 h4
  · subst h1
    exact ⟨sevRank_le_three best, le_refl _, Or.inr rfl⟩
  · subst h2
    exact ⟨sevRank_le_two hbe, le_refl _, Or.inr rfl⟩
  · obtain ⟨rfl, hbp⟩ := h3
    exact ⟨sevRank_le_one hbe hbp, le_refl _, Or.inr rfl⟩
  · obtain ⟨rfl, hbp, hbu⟩ := h4
    refine ⟨?_, le_refl _, Or.inr rfl⟩
    rw [sevRank_eq_zero hbe hbp hbu]
    exact Nat.zero_le _
  · push_neg at h3 h4
    refine ⟨le_refl _, ?_, Or.inl rfl⟩
    by_cases hu : exp = "UNKNOWN"
    · have hbp := h3 hu
      rw [hbp]
      subst hu
      decide
    · by_cases hp : exp = "PROBABLY NOT EXPLOITABLE"
      · subst hp
        have : sevRank "PROBABLY NOT EXPLOITABLE" = 0 := by decide
        rw [this]
        omega
      · rw [sevRank_eq_zero h1 h2 hu]
        omega

theorem mergeLoop_spec :
    ∀ (l : List String) (best : String),
      mergeLoop best l ∈ best :: l ∧
        sevRank best ≤ sevRank (mergeLoop best l) ∧
        ∀ x ∈ l, sevRank x ≤ sevRank (mergeLoop best l) := by
  intro l
  induction l with
  | nil => exact fun best => ⟨List.mem_cons_self _ _, le_refl _, by simp⟩
  | cons exp rest ih =>
    intro best
    rw [mergeLoop]
    by_cases hbe : best = "EXPLOITABLE"
    · rw [if_pos hbe]
      subst hbe
      refine ⟨List.mem_cons_self _ _, le_refl _, fun x _ => ?_⟩
      have := sevRank_le_three x
      have h3 : sevRank "EXPLOITABLE" = 3 := by decide
      omega
    · rw [if_neg hbe]
      obtain ⟨hmem, hb, hall⟩ := ih (mergeStep best exp)
      obtain ⟨hsb, hse, hor⟩ := mergeStep_le best exp hbe
      refine ⟨?_, le_trans hsb hb, ?_⟩
      · rcases List.mem_cons.mp hmem with h | h
        · rw [h]
          rcases hor with h' | h'
          · rw [h']; exact List.mem_cons_self _ _
          · rw [h']; exact List.mem_cons_of_mem _ (List.mem_cons_self _ _)
        · exact List.mem_cons_of_mem _ (List.mem_cons_of_mem _ h)
      · intro x hx
        rcases List.mem_cons.mp hx with rfl | hx'
        · exact le_trans hse hb
        · exact hall x hx'

theorem sevLabel_eq_of_rank {a b : String} (ha : a ∈ sevLabels) (hb : b ∈ sevLabels)
    (h : sevRank a = sevRank b) : a = b := by
  simp only [sevLabels, List.mem_cons, List.not_mem_nil, or_false] at ha hb
  rcases ha with rfl | rfl | rfl | rfl <;> rcases hb with rfl | rfl | rfl | rfl <;>
    first
    | rfl
    | (exfalso; revert h; decide)

/-- C6: For a non-empty list of labels drawn from the four severity
labels, the merged severity computed by the scanning loop of `SortHashDir`
is the maximum of the list under the total order of spec §3, and is
therefore invariant under permuting the labels. -/
theorem severity_merge_is_max (labels : List String) (hne : labels ≠ [])
    (hmem : ∀ l ∈ labels, l ∈ sevLabels) :
    ∃ m, mergeBest labels = some m ∧ m ∈ labels ∧
      (∀ l ∈ labels, sevRank l ≤ sevRank m) ∧
      ∀ labels', labels.Perm labels' → mergeBest labels' = some m := by
  match labels, hne with
  | l0 :: rest, _ =>
    obtain ⟨hm, _, hall⟩ := mergeLoop_spec (l0 :: rest) l0
    refine ⟨mergeLoop l0 (l0 :: rest), rfl, ?_, hall, ?_⟩
    · rcases List.mem_cons.mp hm with h | h
      · rw [h]; exact List.mem_cons_self _ _
      · exact h
    · intro labels' hp
      match labels', Ne.symm (List.Perm.length_eq hp ▸ (by simp : (l0 :: rest).length ≠ 0)) with
      | l0' :: rest', _ =>
        obtain ⟨hm', _, hall'⟩ := mergeLoop_spec (l0' :: rest') l0'
        have hmem1 : mergeLoop l0 (l0 :: rest) ∈ l0 :: rest := by
          rcases List.mem_cons.mp hm with h | h
          · rw [h]; exact List.mem_cons_self _ _
          · exact h
        have hmem1' : mergeLoop l0' (l0' :: rest') ∈ l0' :: rest' := by
          rcases List.mem_cons.mp hm' with h | h
          · rw [h]; exact List.mem_cons_self _ _
          · exact h
        have hle1 : sevRank (mergeLoop l0 (l0 :: rest)) ≤
            sevRank (mergeLoop l0' (l0' :: rest')) :=
          hall' _ (hp.mem_iff.mp hmem1)
        have hle2 : sevRank (mergeLoop l0' (l0' :: rest')) ≤
            sevRank (mergeLoop l0 (l0 :: rest)) :=
          hall _ (hp.mem_iff.mpr hmem1')
        have heq : mergeLoop l0' (l0' :: rest') = mergeLoop l0 (l0 :: rest) :=
          sevLabel_eq_of_rank (hmem _ (hp.mem_iff.mpr hmem1'))
            (hmem _ hmem1) (le_antisymm hle1 hle2).symm
        show some (mergeLoop l0' (l0' :: rest')) = _
        rw [heq]

/-- Witness for C6: `[EXPLOITABLE, UNKNOWN]` and `[UNKNOWN, EXPLOITABLE]`
both merge to `EXPLOITABLE`. -/
theorem severity_merge_is_max_witness :
    mergeBest ["EXPLOITABLE", "UNKNOWN"] = some "EXPLOITABLE" ∧
      mergeBest ["UNKNOWN", "EXPLOITABLE"] = some "EXPLOITABLE" := by
  obtain ⟨m, h1, h2, h3, h4⟩ :=
    severity_merge_is_max ["EXPLOITABLE", "UNKNOWN"] (by decide) (by decide)
  have hm : m = "EXPLOITABLE" := by
    have hb := h3 "EXPLOITABLE" (by decide)
    simp only [List.mem_cons, List.not_mem_nil, or_false] at h2
    rcases h2 with rfl | rfl
    · rfl
    · revert hb; decide
  subst hm
  exact ⟨h1, h4 _ (by decide)⟩

/-! Section: `SortHashDir`: report parsing and group classification

`triage.py` lines 363-417.  `SortHashDir` lists the group directory, takes
every entry whose name ends in `.txt` (skipping entries for which
`os.path.isdir(file)` is true — a check made against the process's current
working directory, modelled by `cwdIsDir`), slices each file's text for the
severity label and the register block, and assembles the target path.  The
directory listing is modelled as name/content pairs; `hashlib.md5` is the
abstract argument `md5`. -/

/-- The label prefix searched for at line 375. -/
def exploitLabel : String := "Exploitability Classification: "

/-- The 80-asterisk rule line that delimits the register block
(lines 380-381). -/
def ruleLine : String := String.mk (List.replicate 80 '*')

/-- Variable `bang_rank` as computed at lines 375-377: everything after the
classification label, truncated at the next newline. -/
def parseRank (data : String) : String :=
  let br := pyDrop data (pyFindSub data exploitLabel + (exploitLabel.length : Int))
  pyTake br (pyFindSub br "\n")

/-- Variable `registers` as computed at lines 376-390: the text between the two rule
lines after the classification label, truncated to its first line, with the
`esp=` and `ebp=` tokens appended. -/
def parseRegisters (data : String) : String :=
  let r0 := pyDrop data (pyFindSub data exploitLabel + (exploitLabel.length : Int))
  let r1 := pyDrop r0 (pyFindSub r0 ruleLine + (ruleLine.length : Int) + 1)
  let r2 := pyTake r1 (pyFindSub r1 ruleLine)
  let esp0 := pyDrop r2 (pyFindSub r2 "esp=")
  let esp := pyTake esp0 (pyFindSub esp0 " ")
  let ebp0 := pyDrop r2 (pyFindSub r2 "ebp=")
  let ebp := pyTake ebp0 (pyFindSub ebp0 " ")
  pyTake r2 (pyFindSub r2 "\n") ++ " " ++ esp ++ " " ++ ebp

/-- The entries of the group directory that lines 370-371 select for
parsing: name ends in `.txt` and `os.path.isdir(file)` (a cwd-relative
check) is false. -/
def selectedReports (cwdIsDir : String → Bool)
    (listing : List (String × String)) : List (String × String) :=
  listing.filter fun p => pyEndsWith p.1 ".txt" && !cwdIsDir p.1

/-- The `exploitability` list accumulated by the parsing loop. -/
def sortLabels (cwdIsDir : String → Bool)
    (listing : List (String × String)) : List String :=
  (selectedReports cwdIsDir listing).map fun p => parseRank p.2

/-- The `registerHash` list accumulated by the parsing loop. -/
def sortFingerprints (md5 : String → String) (cwdIsDir : String → Bool)
    (listing : List (String × String)) : List String :=
  (selectedReports cwdIsDir listing).map fun p => md5 (parseRegisters p.2)

/-- Function `SortHashDir` (lines 363-417): classify the group held in `hashDir`.
`registerHash[0]` on an empty list raises `IndexError`, modelled as `none`. -/
def SortHashDir (md5 : String → String) (cwdIsDir : String → Bool)
    (outputDir hashDir : String) (listing : List (String × String)) :
    Option String :=
  match sortFingerprints md5 cwdIsDir listing, sortLabels cwdIsDir listing with
  | regprev :: fps, l0 :: ls =>
    some (outputDir ++ osSep ++
      (if ((regprev :: fps).any fun r => r != regprev) then
        "RegistersChanged" ++ osSep
      else "") ++
      mergeLoop l0 (l0 :: ls) ++ osSep ++ pyBasename hashDir)
  | _, _ => none

theorem SortHashDir_cons (md5 : String → String) (cwdIsDir : String → Bool)
    (outputDir hashDir : String) (listing : List (String × String))
    {f0 l0 : String} {fs ls : List String}
    (hfp : sortFingerprints md5 cwdIsDir listing = f0 :: fs)
    (hlb : sortLabels cwdIsDir listing = l0 :: ls) :
    SortHashDir md5 cwdIsDir outputDir hashDir listing =
      some (outputDir ++ osSep ++
        (if ((f0 :: fs).any fun r => r != f0) then "RegistersChanged" ++ osSep
        else "") ++
        mergeLoop l0 (l0 :: ls) ++ osSep ++ pyBasename hashDir) := by
  unfold SortHashDir
  rw [hfp, hlb]

/-- The scan of lines 393-397 compares every fingerprint against the first
one; this detects a difference between any two members, not only adjacent
ones. -/
theorem any_ne_head_iff {l : List String} {h : String} :
    (((h :: l).any fun r => r != h) = true) ↔
      ∃ x ∈ h :: l, ∃ y ∈ h :: l, x ≠ y := by
  simp only [List.any_eq_true, bne_iff_ne]
  constructor
  · rintro ⟨x, hx, hne⟩
    exact ⟨x, hx, h, List.mem_cons_self _ _, hne⟩
  · rintro ⟨x, hx, y, hy, hne⟩
    by_cases hxh : x = h
    · subst hxh
      exact ⟨y, hy, fun hc => hne hc.symm⟩
    · exact ⟨x, hx, hxh⟩

theorem pyBasename_append (parent sig : String) (hsig : osSepC ∉ sig.data) :
    pyBasename (parent ++ osSep ++ sig) = sig := by
  have hdata : (parent ++ osSep ++ sig).data = parent.data ++ osSepC :: sig.data := by
    simp [String.data_append, osSep, osSepC]
  have hr := pyRfindChar_eq hdata hsig
  unfold pyBasename
  rw [hr]
  have hcast : (parent.data.length : Int) + 1 = ((parent.data.length + 1 : Nat) : Int) := by
    push_cast
    ring
  rw [hcast]
  apply string_eq_of_data
  rw [pyDrop_data_ofNat, hdata]
  rw [show parent.data ++ osSepC :: sig.data =
    (parent.data ++ [osSepC]) ++ sig.data by simp]
  exact List.drop_left' (by simp)

/-- C7: For a group directory holding at least one `.txt` report (with a
clean working directory), `SortHashDir` returns
`<outputRoot>/[RegistersChanged/]<mergedSeverity>/<signature>`, where the
`RegistersChanged` segment appears iff two of the group's register
fingerprints differ (pairwise, not only adjacent), and the signature is the
group directory's own name. -/
theorem sortHashDir_target_path (md5 : String → String) (cwdIsDir : String → Bool)
    (outputDir parent sig : String) (listing : List (String × String))
    (hcwd : ∀ p ∈ listing, cwdIsDir p.1 = false)
    (htxt : ∃ p ∈ listing, pyEndsWith p.1 ".txt" = true)
    (hsig : osSepC ∉ sig.data) :
    ∃ seg best,
      SortHashDir md5 cwdIsDir outputDir (parent ++ osSep ++ sig) listing =
        some (outputDir ++ osSep ++ seg ++ best ++ osSep ++ sig) ∧
      mergeBest (sortLabels cwdIsDir listing) = some best ∧
      (seg = "RegistersChanged" ++ osSep ∨ seg = "") ∧
      (seg = "RegistersChanged" ++ osSep ↔
        ∃ x ∈ sortFingerprints md5 cwdIsDir listing,
          ∃ y ∈ sortFingerprints md5 cwdIsDir listing, x ≠ y) := by
  have hselne : selectedReports cwdIsDir listing ≠ [] := by
    obtain ⟨p, hp, he⟩ := htxt
    intro hnil
    have hmem : p ∈ selectedReports cwdIsDir listing := by
      unfold selectedReports
      rw [List.mem_filter]
      refine ⟨hp, ?_⟩
      rw [he, hcwd p hp]
      rfl
    rw [hnil] at hmem
    exact List.not_mem_nil p hmem
  obtain ⟨q, qs, hq⟩ := List.exists_cons_of_ne_nil hselne
  have hfp : sortFingerprints md5 cwdIsDir listing =
      md5 (parseRegisters q.2) :: qs.map fun p => md5 (parseRegisters p.2) := by
    unfold sortFingerprints
    rw [hq, List.map_cons]
  have hlb : sortLabels cwdIsDir listing =
      parseRank q.2 :: qs.map fun p => parseRank p.2 := by
    unfold sortLabels
    rw [hq, List.map_cons]
  have hpath := SortHashDir_cons md5 cwdIsDir outputDir (parent ++ osSep ++ sig)
    listing hfp hlb
  rw [pyBasename_append parent sig hsig] at hpath
  by_cases hreg : (((md5 (parseRegisters q.2) ::
      qs.map fun p => md5 (parseRegisters p.2)).any
      fun r => r != md5 (parseRegisters q.2)) = true)
  · refine ⟨"RegistersChanged" ++ osSep,
      mergeLoop (parseRank q.2) (parseRank q.2 :: qs.map fun p => parseRank p.2),
      ?_, ?_, Or.inl rfl, ?_⟩
    · rw [hpath, if_pos hreg]
    · rw [hlb]
      rfl
    · refine iff_of_true rfl ?_
      rw [hfp]
      exact any_ne_head_iff.mp hreg
  · refine ⟨"",
      mergeLoop (parseRank q.2) (parseRank q.2 :: qs.map fun p => parseRank p.2),
      ?_, ?_, Or.inr rfl, ?_⟩
    · rw [hpath, if_neg hreg]
    · rw [hlb]
      rfl
    · refine iff_of_false (by decide) ?_
      rw [hfp]
      exact fun hex => hreg (any_ne_head_iff.mpr hex)

/-- Witness for C7, at a two-report group with identical fingerprints. -/
theorem sortHashDir_target_path_witness :
    ∃ seg best,
      SortHashDir (fun _ => "f") (fun _ => false) "Crashes"
          ("Crashes" ++ osSep ++ "abc123")
          [("x.txt", "r1"), ("y.txt", "r2")] =
        some ("Crashes" ++ osSep ++ seg ++ best ++ osSep ++ "abc123") ∧
      mergeBest (sortLabels (fun _ => false)
        [("x.txt", "r1"), ("y.txt", "r2")]) = some best ∧
      (seg = "RegistersChanged" ++ osSep ∨ seg = "") ∧
      (seg = "RegistersChanged" ++ osSep ↔
        ∃ x ∈ sortFingerprints (fun _ => "f") (fun _ => false)
          [("x.txt", "r1"), ("y.txt", "r2")],
          ∃ y ∈ sortFingerprints (fun _ => "f") (fun _ => false)
            [("x.txt", "r1"), ("y.txt", "r2")], x ≠ y) :=
  sortHashDir_target_path (fun _ => "f") (fun _ => false) "Crashes" "Crashes"
    "abc123" [("x.txt", "r1"), ("y.txt", "r2")]
    (fun p _ => rfl) ⟨("x.txt", "r1"), by decide⟩ (by decide)

/-- C10: The parsing loop of `SortHashDir` selects which files count as
crash reports solely by the `.txt` suffix (given a working directory with
no same-named subdirectories): every `.txt` entry of the group directory
contributes a severity label and a register fingerprint, and every other
entry is ignored. -/
theorem sortHashDir_selects_by_txt (md5 : String → String)
    (cwdIsDir : String → Bool) (listing : List (String × String))
    (hcwd : ∀ p ∈ listing, cwdIsDir p.1 = false) :
    sortLabels cwdIsDir listing =
      (listing.filter fun p => pyEndsWith p.1 ".txt").map (fun p => parseRank p.2) ∧
    sortFingerprints md5 cwdIsDir listing =
      (listing.filter fun p => pyEndsWith p.1 ".txt").map
        (fun p => md5 (parseRegisters p.2)) := by
  have hsel : selectedReports cwdIsDir listing =
      listing.filter fun p => pyEndsWith p.1 ".txt" := by
    unfold selectedReports
    apply List.filter_congr
    intro p hp
    rw [hcwd p hp]
    simp
  exact ⟨by unfold sortLabels; rw [hsel], by unfold sortFingerprints; rw [hsel]⟩

/-- Witness for C10: a `.bin` report-like file is ignored while both `.txt`
files (a report and a crash input copy named `.txt`) are parsed. -/
theorem sortHashDir_selects_by_txt_witness :
    sortLabels (fun _ => false)
        [("a-crash_details.txt", "A"), ("notes.bin", "B"), ("input.txt", "C")] =
      (([("a-crash_details.txt", "A"), ("notes.bin", "B"),
        ("input.txt", "C")].filter fun p => pyEndsWith p.1 ".txt").map
        fun p => parseRank p.2) ∧
    sortFingerprints (fun s => s) (fun _ => false)
        [("a-crash_details.txt", "A"), ("notes.bin", "B"), ("input.txt", "C")] =
      (([("a-crash_details.txt", "A"), ("notes.bin", "B"),
        ("input.txt", "C")].filter fun p => pyEndsWith p.1 ".txt").map
        fun p => parseRegisters p.2) :=
  sortHashDir_selects_by_txt (fun s => s) (fun _ => false)
    [("a-crash_details.txt", "A"), ("notes.bin", "B"), ("input.txt", "C")]
    (fun _ _ => rfl)

/-! Section: The directory tree model

A tree of named entries, used by the recursive directory walks
`CleanupFiles` (`prune`) and `FindHashGroupPath` (`locate`). -/

/-- A filesystem entry: a file, or a directory with named children. -/
inductive Entry where
  | file : Entry
  | dir : List (String × Entry) → Entry

/-- Model of `os.path.isdir` on a path known to exist. -/
def Entry.isDirB : Entry → Bool
  | .file => false
  | .dir _ => true

mutual

/-- Function `CleanupFiles` (`triage.py` lines 420-430): `os.listdir(path)` once; if
the listing is empty, `os.rmdir(path)` (modelled as `none`) and return;
otherwise recurse into each subdirectory (here `os.path.isdir` is called on
the full path, so it is a real check).  The emptiness test happens before
the children are pruned, so only directories already empty at entry are
removed. -/
def CleanupFiles : Entry → Option Entry
  | .file => some .file
  | .dir cs => if cs.isEmpty then none else some (.dir (cleanupChildren cs))

/-- The `for` loop of lines 428-430: prune each subdirectory in place; a
recursive call that removed its directory (`none`) drops the child. -/
def cleanupChildren : List (String × Entry) → List (String × Entry)
  | [] => []
  | (n, Entry.file) :: rest => (n, Entry.file) :: cleanupChildren rest
  | (n, Entry.dir cs) :: rest =>
    match CleanupFiles (Entry.dir cs) with
    | none => cleanupChildren rest
    | some e => (n, e) :: cleanupChildren rest

end

/-- Paths (component lists) of all directories in a child list. -/
def dirPaths : List (String × Entry) → List (List String)
  | [] => []
  | (_, Entry.file) :: rest => dirPaths rest
  | (n, Entry.dir cs) :: rest => [n] :: ((dirPaths cs).map (n :: ·) ++ dirPaths rest)

/-- Paths (component lists) of all files in a child list. -/
def filePaths : List (String × Entry) → List (List String)
  | [] => []
  | (n, Entry.file) :: rest => [n] :: filePaths rest
  | (n, Entry.dir cs) :: rest => (filePaths cs).map (n :: ·) ++ filePaths rest

/-- Paths of all directories in a child list whose own listing is
non-empty. -/
def nonemptyDirPaths : List (String × Entry) → List (List String)
  | [] => []
  | (_, Entry.file) :: rest => nonemptyDirPaths rest
  | (n, Entry.dir cs) :: rest =>
    (if cs.isEmpty then [] else [[n]]) ++
      ((nonemptyDirPaths cs).map (n :: ·) ++ nonemptyDirPaths rest)

theorem cleanupChildren_paths :
    ∀ cs : List (String × Entry),
      dirPaths (cleanupChildren cs) = nonemptyDirPaths cs ∧
      filePaths (cleanupChildren cs) = filePaths cs
  | [] => by
    simp [cleanupChildren, dirPaths, filePaths, nonemptyDirPaths]
  | (n, Entry.file) :: rest => by
    have ih := cleanupChildren_paths rest
    simp [cleanupChildren, dirPaths, filePaths, nonemptyDirPaths, ih.1, ih.2]
  | (n, Entry.dir cs') :: rest => by
    have ih1 := cleanupChildren_paths cs'
    have ih2 := cleanupChildren_paths rest
    by_cases he : cs' = []
    · subst he
      simp [cleanupChildren, CleanupFiles, dirPaths, filePaths, nonemptyDirPaths,
        ih2.1, ih2.2]
    · have hne : ¬ cs'.isEmpty = true := by
        simpa [List.isEmpty_iff] using he
      simp [cleanupChildren, CleanupFiles, hne, dirPaths, filePaths,
        nonemptyDirPaths, ih1.1, ih1.2, ih2.1, ih2.2, he]

/-- C2 (amended): One `prune` pass removes exactly the directories whose
listing is already empty when the pass reaches them: emptiness is tested
before the children are pruned (pre-order), so a directory emptied by the
removal of its children survives the pass, and a second run can remove
more.  Files and non-empty directories are untouched. -/
theorem cleanupFiles_removes_exactly_empty_dirs :
    ∀ cs : List (String × Entry),
      (CleanupFiles (Entry.dir cs) = none ↔ cs = []) ∧
      CleanupFiles (Entry.dir cs) =
        (if cs.isEmpty then none else some (Entry.dir (cleanupChildren cs))) ∧
      dirPaths (cleanupChildren cs) = nonemptyDirPaths cs ∧
      filePaths (cleanupChildren cs) = filePaths cs := by
  intro cs
  have hp := cleanupChildren_paths cs
  by_cases he : cs = []
  · subst he
    exact ⟨by simp [CleanupFiles], by simp [CleanupFiles], hp.1, hp.2⟩
  · have hne : ¬ cs.isEmpty = true := by
      simpa [List.isEmpty_iff] using he
    refine ⟨?_, ?_, hp.1, hp.2⟩
    · simp [CleanupFiles, hne, he]
    · simp [CleanupFiles, hne, he]

/-- C2 (counterexample): the function `prune` is not a fixed point: on
`a/b` with `b` empty, the first run removes only `b` (the emptiness of `a`
was checked before its children were pruned), and the second run removes
`a` — it is not a no-op. -/
theorem cleanupFiles_not_fixed_point :
    CleanupFiles (Entry.dir [("a", Entry.dir [("b", Entry.dir [])])]) =
      some (Entry.dir [("a", Entry.dir [])]) ∧
    CleanupFiles (Entry.dir [("a", Entry.dir [])]) =
      some (Entry.dir []) ∧
    Entry.dir [("a", Entry.dir [])] ≠ Entry.dir [] := by
  refine ⟨?_, ?_, by simp⟩
  · simp [CleanupFiles, cleanupChildren]
  · simp [CleanupFiles, cleanupChildren]

/-! Section: `FindHashGroupPath` (`locate`)

`triage.py` lines 334-352.  The function lists `baseDir`, but tests
`os.path.isdir(file)` on the bare entry name, which the OS resolves against
the process's current working directory — not against `baseDir`.  The test
is modelled by the `cwdIsDir` oracle.  `os.listdir` on a non-directory
raises `OSError`, modelled as `.error ()`. -/

mutual

/-- Function `FindHashGroupPath` (lines 334-352) over the subtree rooted at
`baseDir`. -/
def FindHashGroupPath (cwdIsDir : String → Bool) (hash : String) :
    String → Entry → Except Unit (Option String)
  | _, .file => .error ()
  | baseDir, .dir cs =>
    if (cs.map Prod.fst).any fun n => cwdIsDir n && n == hash then
      .ok (some (baseDir ++ osSep ++ hash))
    else
      findHashGroupPathList cwdIsDir hash baseDir cs

/-- The second loop of lines 348-351: recurse into every entry the first
loop classified as a directory (i.e. every name for which the cwd-relative
`os.path.isdir` was true). -/
def findHashGroupPathList (cwdIsDir : String → Bool) (hash : String) :
    String → List (String × Entry) → Except Unit (Option String)
  | _, [] => .ok none
  | baseDir, (n, e) :: rest =>
    if cwdIsDir n then
      match FindHashGroupPath cwdIsDir hash (baseDir ++ osSep ++ n) e with
      | .error u => .error u
      | .ok (some p) => .ok (some p)
      | .ok none => findHashGroupPathList cwdIsDir hash baseDir rest
    else findHashGroupPathList cwdIsDir hash baseDir rest

end

mutual

/-- Whether some directory anywhere in the tree is named `s`. -/
def hasDirNamed (s : String) : Entry → Bool
  | .file => false
  | .dir cs => hasDirNamedList s cs

/-- Predicate `hasDirNamed` over a child list. -/
def hasDirNamedList (s : String) : List (String × Entry) → Bool
  | [] => false
  | (n, e) :: rest =>
    (n == s && e.isDirB) || hasDirNamed s e || hasDirNamedList s rest

end

/-- With a working directory containing none of the tree's entry names as
directories, the cwd-relative `os.path.isdir(file)` test is always false,
so `FindHashGroupPath` classifies nothing as a directory and returns `None`
on every tree. -/
theorem findHashGroupPath_clean_cwd (hash : String) :
    ∀ (baseDir : String) (cs : List (String × Entry)),
      FindHashGroupPath (fun _ => false) hash baseDir (Entry.dir cs) = .ok none := by
  intro baseDir cs
  rw [FindHashGroupPath]
  rw [if_neg (by simp)]
  induction cs with
  | nil => rw [findHashGroupPathList]
  | cons p rest ih =>
    rw [findHashGroupPathList]
    exact ih

/-- C1 (code bug): the output tree `Crashes/EXPLOITABLE/abc123/...`
contains a directory literally named `abc123`, yet `locate("abc123")`
returns `None` when the process's working directory holds no directory
named like any tree entry: line 342 tests `os.path.isdir(file)` on the bare
name, resolving against the cwd instead of `baseDir`, contradicting the
function's own doc comment ("Recursively searches the baseDir for a
directory labeled [hash]; returns the full path of that directory"). -/
theorem findHashGroupPath_misses_existing_group :
    hasDirNamed "abc123"
      (Entry.dir [("EXPLOITABLE",
        Entry.dir [("abc123", Entry.dir [("crash.txt", Entry.file)])])]) = true ∧
    FindHashGroupPath (fun _ => false) "abc123" "Crashes"
      (Entry.dir [("EXPLOITABLE",
        Entry.dir [("abc123", Entry.dir [("crash.txt", Entry.file)])])]) =
      .ok none := by
  constructor
  · simp [hasDirNamed, hasDirNamedList, Entry.isDirB]
  · exact findHashGroupPath_clean_cwd "abc123" "Crashes" _

/-! Section: `GenerateCrashReport` (Session Controller)

`triage.py` lines 221-307.  The input is copied to the scratch location
`testname` (line 239); the debugger run, process polling and window-killer
interplay are summarised by which exit path the `try` block takes.  The
`while os.path.exists(...)` delete loops (lines 282-286, 295-299, 302-306)
that tolerate transient lock failures are modelled as the removal
succeeding. -/

/-- How one debugger session ends, as seen by the control flow of
lines 241-307: the `try` body runs to completion with a final value of the
`timeout` counter (lines 263-266) and the report file present or absent;
or a statement inside the `try` raises an ordinary exception; or the
operator interrupts (`KeyboardInterrupt`). -/
inductive SessionEvent where
  | runs (timeout : Nat) (reportExists : Bool)
  | exception (reportExists : Bool)
  | interrupt
deriving DecidableEq

/-- Observable outcome of `GenerateCrashReport`: whether the
`KeyboardInterrupt` was re-raised, the value returned (`none` models
Python's `None`), and whether the scratch copy `testname` still exists on
disk when the call is over. -/
structure SessionResult where
  raised : Bool
  ret : Option String
  scratchExists : Bool
deriving DecidableEq

/-- Function `GenerateCrashReport` (lines 221-307) from the point where the scratch
copy exists (line 239).  The early `return None` at lines 273-274 sits
inside the `try`, before every scratch-removal loop; the `except` handlers
(lines 275-301) and the fall-through path (lines 302-307) all remove the
scratch copy first. -/
def GenerateCrashReport (maxTime : Nat) (logoutput : String)
    (ev : SessionEvent) : SessionResult :=
  match ev with
  | .runs timeout reportExists =>
    if timeout = maxTime ∧ reportExists = false then
      { raised := false, ret := none, scratchExists := true }
    else
      { raised := false, ret := some logoutput, scratchExists := false }
  | .exception reportExists =>
    if reportExists then
      { raised := false, ret := some logoutput, scratchExists := false }
    else
      { raised := false, ret := none, scratchExists := false }
  | .interrupt =>
    { raised := true, ret := none, scratchExists := false }

/-- C3 (code bug): when the session runs to the full timeout and no
report file was produced, `GenerateCrashReport` returns `None` through the
early return of lines 273-274, which precedes every scratch-removal loop:
the scratch copy is left on disk, contradicting the script's own usage
text ("This file is always deleted after every test").  The other exit
paths (early process exit, exception, interruption) do remove it. -/
theorem generateCrashReport_timeout_leaves_scratch :
    GenerateCrashReport 10 "crash_details.txt" (.runs 10 false) =
      { raised := false, ret := none, scratchExists := true } ∧
    GenerateCrashReport 10 "crash_details.txt" (.runs 3 false) =
      { raised := false, ret := some "crash_details.txt", scratchExists := false } ∧
    GenerateCrashReport 10 "crash_details.txt" (.exception false) =
      { raised := false, ret := none, scratchExists := false } ∧
    GenerateCrashReport 10 "crash_details.txt" .interrupt =
      { raised := true, ret := none, scratchExists := false } := by
  refine ⟨by decide, by decide, by decide, by decide⟩

/-! Section: `RunTriage`, per-input routing

`triage.py` lines 499-515: the body of the driver loop for one candidate
input. -/

/-- What the driver does with one candidate input: file it under the
failure bucket — `os.mkdir(<outputDir>/UnableToReproduce)` if absent
(lines 507-508), then `MoveFile(file, dest)` (line 510) — or rename the
report next to the input and hand both to `ProcessDetailsFile` (grouping,
classification and placement, lines 512-515). -/
inductive TriageAction where
  | unableToReproduce (bucket dest : String)
  | processed (report crashFile : String)

/-- One iteration of the `RunTriage` loop (lines 503-515), given the value
returned by `GenerateCrashReport` and an oracle for
`open(report, "r").read()`. -/
def runTriageStep (outputDir logoutput file : String) (report : Option String)
    (readFile : String → String) : TriageAction :=
  match report with
  | none =>
    .unableToReproduce (outputDir ++ osSep ++ "UnableToReproduce")
      (outputDir ++ osSep ++ "UnableToReproduce" ++ osSep ++ pyBasename file)
  | some r =>
    if pyContains (readFile r) "Hash=" = false then
      .unableToReproduce (outputDir ++ osSep ++ "UnableToReproduce")
        (outputDir ++ osSep ++ "UnableToReproduce" ++ osSep ++ pyBasename file)
    else
      .processed (file ++ "-" ++ logoutput) file

/-- C8: a candidate input whose session yields no report, or a report
whose text lacks the `Hash=` token, is moved to
`<outputRoot>/UnableToReproduce/<basename of the input>` (the bucket
directory being created first if absent), and no parsing, grouping or
classification happens for it — the case is handled locally, not raised as
an error. -/
theorem runTriage_failure_bucket (outputDir logoutput parent base : String)
    (report : Option String) (readFile : String → String)
    (hbase : osSepC ∉ base.data)
    (hfail : report = none ∨
      ∃ r, report = some r ∧ pyContains (readFile r) "Hash=" = false) :
    runTriageStep outputDir logoutput (parent ++ osSep ++ base) report readFile =
      .unableToReproduce (outputDir ++ osSep ++ "UnableToReproduce")
        (outputDir ++ osSep ++ "UnableToReproduce" ++ osSep ++ base) := by
  have hb : pyBasename (parent ++ osSep ++ base) = base :=
    pyBasename_append parent base hbase
  rcases hfail with rfl | ⟨r, rfl, hr⟩
  · rw [runTriageStep, hb]
  · rw [runTriageStep, if_pos hr, hb]

/-- Witness for C8: a session that timed out with no report file sends the
input `Crashes/input1` to `Crashes/UnableToReproduce/input1`. -/
theorem runTriage_failure_bucket_witness :
    runTriageStep "Crashes" "crash_details.txt" ("Crashes" ++ osSep ++ "input1")
        none (fun _ => "") =
      .unableToReproduce ("Crashes" ++ osSep ++ "UnableToReproduce")
        ("Crashes" ++ osSep ++ "UnableToReproduce" ++ osSep ++ "input1") :=
  runTriage_failure_bucket "Crashes" "crash_details.txt" "Crashes" "input1"
    none (fun _ => "") (by decide) (Or.inl rfl)

/-! Section: `MoveFile` on a flat filesystem

`triage.py` lines 433-451.  `MoveFile`'s source and destination live in one
tree, so the filesystem is modelled as a flat store of component paths
(names joined by `os.sep`; a path string maps to its component list).  The
collision renamer of lines 442-446 operates on the rendered path string; it
is the `moveDestination`/`dupName` function verified above, and is passed
here as an abstract argument `ren`.  The `while os.path.exists(source)`
retry around `shutil.move` (lines 447-451) is modelled as the move
succeeding when the source exists and doing nothing otherwise.  The
recursion of line 438 can genuinely fail to terminate (destination created
inside the source), so the model takes a fuel parameter and returns `none`
when the fuel runs out. -/

/-- Flat filesystem: the component paths of every directory and file. -/
structure FS where
  dirs : List (List String)
  files : List (List String)
deriving DecidableEq

/-- Model of `os.path.isdir`. -/
def FS.isdir (fs : FS) (p : List String) : Bool :=
  fs.dirs.contains p

/-- Model of `os.path.exists`. -/
def FS.pathExists (fs : FS) (p : List String) : Bool :=
  fs.dirs.contains p || fs.files.contains p

/-- Model of `os.mkdir`. -/
def FS.mkdir (fs : FS) (p : List String) : FS :=
  { fs with dirs := fs.dirs.concat p }

/-- If `q` is an immediate child of `p`, its name. -/
def childName (p q : List String) : Option String :=
  if q.dropLast = p ∧ q ≠ [] then q.getLast? else none

/-- Model of `os.listdir p`: the names of the immediate children of `p`. -/
def FS.listdir (fs : FS) (p : List String) : List String :=
  fs.dirs.filterMap (childName p) ++ fs.files.filterMap (childName p)

/-- Model of `shutil.move` of a non-directory source, wrapped in the
`while os.path.exists(source)` retry loop of lines 447-451: when the source
does not exist the loop body never runs. -/
def FS.moveFile (fs : FS) (src dst : List String) : FS :=
  if fs.files.contains src then
    { fs with files := (fs.files.erase src).concat dst }
  else fs

/-- The `for` loop of lines 437-438, sequencing the recursive `MoveFile`
calls over the snapshot of `os.listdir(source)`. -/
def moveChildren (step : FS → List String → List String → Option FS)
    (src dst : List String) : FS → List String → Option FS
  | fs, [] => some fs
  | fs, n :: rest =>
    match step fs (src.concat n) (dst.concat n) with
    | none => none
    | some fs' => moveChildren step src dst fs' rest

/-- Function `MoveFile` (lines 433-451).  Directory source: create the destination
if missing, then recursively move each listed child, and return — the
source directory is never removed.  Otherwise: append the basename when
the destination is a directory, rename on collision (`ren`, lines
442-446), and move. -/
def MoveFile (ren : FS → List String → List String) :
    Nat → FS → List String → List String → Option FS
  | 0, _, _, _ => none
  | fuel + 1, fs, source, destination =>
    if fs.isdir source then
      let fs1 := if fs.pathExists destination then fs else fs.mkdir destination
      moveChildren (MoveFile ren fuel) source destination fs1 (fs1.listdir source)
    else
      let d1 := if fs.isdir destination then destination.concat (source.getLastD "")
        else destination
      let d2 := if fs.pathExists d1 then ren fs d1 else d1
      some (fs.moveFile source d2)

/-- Predicate: `q` lies strictly inside the directory `p`. -/
def strictUnder (p q : List String) : Prop :=
  p <+: q ∧ q ≠ p

/-- The path of `q` relocated from under `src` to under `dst`. -/
def rebase (src dst q : List String) : List String :=
  dst ++ q.drop src.length

/-- C4 (counterexample): moving the directory `s` (holding one file
`f`) to the fresh destination `d` moves the file but leaves the emptied
source directory `s` in place: `MoveFile`'s directory branch returns after
the loop without removing the source. -/
theorem moveFile_dir_source_survives :
    MoveFile (fun _ p => p) 3 ⟨[["s"]], [["s", "f"]]⟩ ["s"] ["d"] =
      some ⟨[["s"], ["d"]], [["d", "f"]]⟩ ∧
    (["s"] ∈ (FS.mk [["s"], ["d"]] [["d", "f"]]).dirs ∧
      ["s", "f"] ∉ (FS.mk [["s"], ["d"]] [["d", "f"]]).files) := by
  exact ⟨by decide, by decide, by decide⟩

theorem contains_path_iff {l : List (List String)} {p : List String} :
    l.contains p = true ↔ p ∈ l := by
  simp [List.contains, List.elem_iff]

theorem strictUnder_length {p q : List String} (h : strictUnder p q) :
    p.length < q.length := by
  obtain ⟨hp, hne⟩ := h
  rcases Nat.lt_or_ge p.length q.length with h' | h'
  · exact h'
  · exact absurd (hp.eq_of_length_le h') fun he => hne he.symm

theorem strictUnder_decomp {p q : List String} (h : strictUnder p q) :
    ∃ (n : String) (tail : List String), q = p ++ n :: tail := by
  obtain ⟨⟨t, rfl⟩, hne⟩ := h
  match t, hne with
  | [], hne => simp at hne
  | n :: tail, _ => exact ⟨n, tail, rfl⟩

theorem prefix_snoc_iff {l t : List String} {a : String} :
    l <+: t ++ [a] ↔ l <+: t ∨ l = t ++ [a] := by
  constructor
  · intro h
    rcases Nat.lt_or_ge l.length (t ++ [a]).length with hl | hl
    · left
      refine List.prefix_of_prefix_length_le h (t.prefix_append [a]) ?_
      simp only [List.length_append, List.length_cons, List.length_nil] at hl
      omega
    · right
      exact h.eq_of_length_le hl
  · rintro (h | rfl)
    · exact h.trans (t.prefix_append [a])
    · exact List.prefix_rfl

/-- A path cannot lie both at-or-under the (existing) source and
at-or-under the (fresh, non-nested) destination. -/
theorem prefix_clash {fs : FS} {src dst : List String}
    (hsrc : src ∈ fs.dirs)
    (hfresh : ∀ q, dst <+: q → q ∉ fs.dirs ∧ q ∉ fs.files)
    (hnest : ¬ src <+: dst) {q : List String}
    (h1 : src <+: q) (h2 : dst <+: q) : False := by
  rcases List.prefix_or_prefix_of_prefix h1 h2 with h | h
  · exact hnest h
  · exact (hfresh src h).1 hsrc

/-- In a parent-closed store, every proper ancestor (at or below `src`) of
an entry is a directory. -/
theorem ancestor_is_dir {fs : FS} {src : List String}
    (hWF : ∀ q, (q ∈ fs.dirs ∨ q ∈ fs.files) → strictUnder src q →
      q.dropLast ∈ fs.dirs)
    (hsrc : src ∈ fs.dirs) :
    ∀ (k : Nat) (q : List String), q.length ≤ k →
      (q ∈ fs.dirs ∨ q ∈ fs.files) → src <+: q →
      ∀ a, src <+: a → a <+: q → a ≠ q → a ∈ fs.dirs := by
  intro k
  induction k with
  | zero =>
    intro q hk _ _ a _ haq hne
    have : q = [] := by
      cases q with
      | nil => rfl
      | cons x xs => simp at hk
    subst this
    exact absurd (List.prefix_nil.mp haq) hne
  | succ k ih =>
    intro q hk hq hpre a hsa haq hne
    by_cases hqsrc : q = src
    · subst hqsrc
      exact absurd (haq.eq_of_length_le hsa.length_le) hne
    · have hstrict : strictUnder src q := ⟨hpre, hqsrc⟩
      have hdl : q.dropLast ∈ fs.dirs := hWF q hq hstrict
      have hqne : q ≠ [] := by
        rintro rfl
        exact hne (List.prefix_nil.mp haq)
      by_cases had : a = q.dropLast
      · rw [had]
        exact hdl
      · have halen : a.length < q.length := by
          rcases Nat.lt_or_ge a.length q.length with h | h
          · exact h
          · exact absurd (haq.eq_of_length_le h) hne
        have hlen : a.length ≤ q.dropLast.length := by
          rw [List.length_dropLast]
          omega
        have hadl : a <+: q.dropLast :=
          List.prefix_of_prefix_length_le haq (q.dropLast_prefix) hlen
        have hql : 0 < q.length := by
          cases q with
          | nil => exact absurd rfl hqne
          | cons x xs => simp
        exact ih q.dropLast (by rw [List.length_dropLast]; omega) (Or.inl hdl)
          (hsa.trans hadl) a hsa hadl had

theorem childName_eq_some {p q : List String} {n : String} :
    childName p q = some n ↔ q = p ++ [n] := by
  constructor
  · intro h
    unfold childName at h
    split_ifs at h with hc
    · obtain ⟨h1, _⟩ := hc
      have := List.dropLast_append_getLast? n h
      rw [h1] at this
      exact this.symm
  · rintro rfl
    unfold childName
    rw [if_pos ⟨List.dropLast_concat, by simp⟩]
    exact List.getLast?_concat p

theorem mem_listdir_iff {fs : FS} {p : List String} {n : String} :
    n ∈ fs.listdir p ↔ (p ++ [n] ∈ fs.dirs ∨ p ++ [n] ∈ fs.files) := by
  unfold FS.listdir
  simp only [List.mem_append, List.mem_filterMap]
  constructor
  · rintro (⟨q, hq, hcn⟩ | ⟨q, hq, hcn⟩) <;> rw [childName_eq_some] at hcn <;>
      subst hcn
    · exact Or.inl hq
    · exact Or.inr hq
  · rintro (h | h)
    · exact Or.inl ⟨p ++ [n], h, childName_eq_some.mpr rfl⟩
    · exact Or.inr ⟨p ++ [n], h, childName_eq_some.mpr rfl⟩

theorem listdir_nodup {fs : FS} (hnd : (fs.dirs ++ fs.files).Nodup)
    (p : List String) : (fs.listdir p).Nodup := by
  rw [List.nodup_append] at hnd
  obtain ⟨hd, hf, hdisj⟩ := hnd
  have hinj : ∀ (a a' : List String) (b : String),
      b ∈ childName p a → b ∈ childName p a' → a = a' := by
    intro a a' b hb hb'
    rw [Option.mem_def, childName_eq_some] at hb hb'
    rw [hb, hb']
  unfold FS.listdir
  rw [List.nodup_append]
  refine ⟨hd.filterMap hinj, hf.filterMap hinj, ?_⟩
  intro n hn hn'
  simp only [List.mem_filterMap] at hn hn'
  obtain ⟨q, hq, hcn⟩ := hn
  obtain ⟨q', hq', hcn'⟩ := hn'
  rw [childName_eq_some] at hcn hcn'
  subst hcn
  subst hcn'
  exact hdisj hq hq'

theorem rebase_cons {src dst : List String} {n : String} {tail : List String} :
    rebase src dst (src ++ n :: tail) = dst ++ n :: tail := by
  unfold rebase
  rw [List.drop_left]

/-- Preconditions for `MoveFile` on a directory source: the source exists,
the destination subtree is entirely fresh, the destination is not nested
inside the source, every strict descendant of the source has its parent
directory present, and the store has no duplicate entries. -/
def MoveOK (fs : FS) (src dst : List String) : Prop :=
  src ∈ fs.dirs ∧
  (∀ q, dst <+: q → q ∉ fs.dirs ∧ q ∉ fs.files) ∧
  ¬ src <+: dst ∧
  (∀ q, (q ∈ fs.dirs ∨ q ∈ fs.files) → strictUnder src q →
    q.dropLast ∈ fs.dirs) ∧
  (fs.dirs ++ fs.files).Nodup

/-- The fuel bounds the nesting depth below the source. -/
def depthOK (fs : FS) (src : List String) (fuel : Nat) : Prop :=
  ∀ q, (q ∈ fs.dirs ∨ q ∈ fs.files) → strictUnder src q →
    q.length < src.length + fuel

/-- Intermediate state of the file store while the children named in
`done` have been transplanted from under `src` to under `dst`. -/
def pfile (fs₀ : FS) (src dst : List String) (done : List String)
    (q : List String) : Prop :=
  (q ∈ fs₀.files ∧ ∀ n ∈ done, ¬ (src ++ [n]) <+: q) ∨
  (∃ r ∈ fs₀.files, (∃ n ∈ done, (src ++ [n]) <+: r) ∧ q = rebase src dst r)

/-- Intermediate state of the directory store: directories are never
removed; `dst` and the `dst`-rebased images of directories under the
processed children have been created. -/
def pdir (fs₀ : FS) (src dst : List String) (done : List String)
    (q : List String) : Prop :=
  q ∈ fs₀.dirs ∨ q = dst ∨
  (∃ r ∈ fs₀.dirs, (∃ n ∈ done, (src ++ [n]) <+: r) ∧ q = rebase src dst r)

/-- Statement of the directory-branch specification of `MoveFile` at a
given fuel, used as the induction hypothesis across recursion levels. -/
def MoveSpec (ren : FS → List String → List String) (fuel : Nat) : Prop :=
  ∀ (fs : FS) (src dst : List String),
    MoveOK fs src dst → depthOK fs src fuel → 0 < fuel →
    ∃ fs', MoveFile ren fuel fs src dst = some fs' ∧
      src ∈ fs'.dirs ∧
      (∀ q, q ∈ fs'.files ↔
        (q ∈ fs.files ∧ ¬ strictUnder src q) ∨
        (∃ r ∈ fs.files, strictUnder src r ∧ q = rebase src dst r)) ∧
      (∀ q, q ∈ fs'.dirs ↔
        q ∈ fs.dirs ∨ q = dst ∨
        (∃ r ∈ fs.dirs, strictUnder src r ∧ q = rebase src dst r)) ∧
      (fs'.dirs ++ fs'.files).Nodup

theorem rebase_under_dst {src dst r : List String} : dst <+: rebase src dst r :=
  dst.prefix_append _

theorem strictUnder_child {src : List String} {n : String} {q : List String}
    (h : (src ++ [n]) <+: q) : strictUnder src q := by
  refine ⟨(src.prefix_append [n]).trans h, ?_⟩
  intro he
  have := h.length_le
  rw [he] at this
  simp at this

theorem child_prefix_unique {src : List String} {n n' : String}
    {q : List String} (h : (src ++ [n]) <+: q) (h' : (src ++ [n']) <+: q) :
    n = n' := by
  have hl : (src ++ [n]).length ≤ (src ++ [n']).length := by simp
  have := List.prefix_of_prefix_length_le h h' hl
  have heq : src ++ [n] = src ++ [n'] := this.eq_of_length (by simp)
  simpa using List.append_cancel_left heq

/-- Entries of an intermediate state that lie under `src` are original. -/
theorem pdir_under_src {fs₀ : FS} {src dst : List String}
    (hok : MoveOK fs₀ src dst) {done : List String} {q : List String}
    (h : pdir fs₀ src dst done q) (hq : src <+: q) : q ∈ fs₀.dirs := by
  obtain ⟨hsrc, hfresh, hnest, _, _⟩ := hok
  rcases h with h | rfl | ⟨r, _, _, rfl⟩
  · exact h
  · exact absurd hq hnest
  · exact absurd rebase_under_dst fun hd => prefix_clash hsrc hfresh hnest hq hd

/-- File entries of an intermediate state that lie under `src` are original
and not under any processed child. -/
theorem pfile_under_src {fs₀ : FS} {src dst : List String}
    (hok : MoveOK fs₀ src dst) {done : List String} {q : List String}
    (h : pfile fs₀ src dst done q) (hq : src <+: q) :
    q ∈ fs₀.files ∧ ∀ n ∈ done, ¬ (src ++ [n]) <+: q := by
  obtain ⟨hsrc, hfresh, hnest, _, _⟩ := hok
  rcases h with h | ⟨r, _, _, rfl⟩
  · exact h
  · exact absurd rebase_under_dst fun hd => prefix_clash hsrc hfresh hnest hq hd

/-- Nothing in an intermediate state lies under `dst ++ [n]` for an
unprocessed child name `n`. -/
theorem pdir_not_under_dstn {fs₀ : FS} {src dst : List String}
    (hok : MoveOK fs₀ src dst) {done : List String} {n : String}
    (hn : n ∉ done) {q : List String} (h : pdir fs₀ src dst done q)
    (hq : (dst ++ [n]) <+: q) : False := by
  obtain ⟨_, hfresh, _, _, _⟩ := hok
  have hdq : dst <+: q := (dst.prefix_append [n]).trans hq
  rcases h with h | rfl | ⟨r, _, ⟨n', hn', hr⟩, rfl⟩
  · exact (hfresh q hdq).1 h
  · have := hq.length_le
    simp at this
  · obtain ⟨m, tail, hr2⟩ := strictUnder_decomp (strictUnder_child hr)
    have hrm : (src ++ [m]) <+: r := by
      rw [hr2]
      exact ⟨tail, by simp⟩
    have hm : m = n' := child_prefix_unique hrm hr
    subst hm
    rw [hr2, rebase_cons, List.prefix_append_right_inj,
      List.cons_prefix_cons] at hq
    exact hn (hq.1 ▸ hn')

/-- No file of an intermediate state lies under `dst ++ [n]` for an
unprocessed child name `n`. -/
theorem pfile_not_under_dstn {fs₀ : FS} {src dst : List String}
    (hok : MoveOK fs₀ src dst) {done : List String} {n : String}
    (hn : n ∉ done) {q : List String} (h : pfile fs₀ src dst done q)
    (hq : (dst ++ [n]) <+: q) : False := by
  obtain ⟨_, hfresh, _, _, _⟩ := hok
  have hdq : dst <+: q := (dst.prefix_append [n]).trans hq
  rcases h with ⟨h, _⟩ | ⟨r, _, ⟨n', hn', hr⟩, rfl⟩
  · exact (hfresh q hdq).2 h
  · obtain ⟨m, tail, hr2⟩ := strictUnder_decomp (strictUnder_child hr)
    have hrm : (src ++ [m]) <+: r := by
      rw [hr2]
      exact ⟨tail, by simp⟩
    have hm : m = n' := child_prefix_unique hrm hr
    subst hm
    rw [hr2, rebase_cons, List.prefix_append_right_inj,
      List.cons_prefix_cons] at hq
    exact hn (hq.1 ▸ hn')

theorem isdir_iff {fs : FS} {p : List String} :
    fs.isdir p = true ↔ p ∈ fs.dirs := by
  rw [FS.isdir]
  exact contains_path_iff

theorem pathExists_iff {fs : FS} {p : List String} :
    fs.pathExists p = true ↔ p ∈ fs.dirs ∨ p ∈ fs.files := by
  rw [FS.pathExists]
  simp [contains_path_iff]

/-- Nothing can sit strictly below a file: its parent chain would make the
file a directory. -/
theorem no_entry_under_file {fs₀ : FS} {src dst : List String}
    (hok : MoveOK fs₀ src dst) {c q : List String}
    (hcfile : c ∈ fs₀.files) (hsrc_c : src <+: c)
    (hq : q ∈ fs₀.dirs ∨ q ∈ fs₀.files) (hcq : c <+: q) (hne : q ≠ c) :
    False := by
  have hdisj₀ := (List.nodup_append.mp hok.2.2.2.2).2.2
  have hc : c ∈ fs₀.dirs :=
    ancestor_is_dir hok.2.2.2.1 hok.1 q.length q le_rfl hq (hsrc_c.trans hcq)
      c hsrc_c hcq (fun he => hne he.symm)
  exact hdisj₀ hc hcfile

theorem moveChildren_spec (ren : FS → List String → List String) (m : Nat)
    (hIH : MoveSpec ren m) (fs₀ : FS) (src dst : List String)
    (hok : MoveOK fs₀ src dst) (hdepth : depthOK fs₀ src (m + 1)) :
    ∀ (todo : List String), todo.Nodup →
      (∀ n ∈ todo, src ++ [n] ∈ fs₀.dirs ∨ src ++ [n] ∈ fs₀.files) →
      ∀ (done : List String) (g : FS),
      (∀ n ∈ todo, n ∉ done) →
      (∀ q, q ∈ g.files ↔ pfile fs₀ src dst done q) →
      (∀ q, q ∈ g.dirs ↔ pdir fs₀ src dst done q) →
      (g.dirs ++ g.files).Nodup →
      ∃ g', moveChildren (MoveFile ren m) src dst g todo = some g' ∧
        (∀ q, q ∈ g'.files ↔ pfile fs₀ src dst (done ++ todo) q) ∧
        (∀ q, q ∈ g'.dirs ↔ pdir fs₀ src dst (done ++ todo) q) ∧
        (g'.dirs ++ g'.files).Nodup := by
  intro todo
  induction todo with
  | nil =>
    intro _ _ done g _ hgf hgd hgnd
    exact ⟨g, rfl, by simpa using hgf, by simpa using hgd, hgnd⟩
  | cons n rest ih =>
    intro hnd hchild done g hdisj hgf hgd hgnd
    have hn_notdone : n ∉ done := hdisj n (List.mem_cons_self n rest)
    have hdisj₀ := (List.nodup_append.mp hok.2.2.2.2).2.2
    have hcfs := hchild n (List.mem_cons_self n rest)
    have hsu_c : strictUnder src (src ++ [n]) := strictUnder_child List.prefix_rfl
    have hmpos : 0 < m := by
      have := hdepth _ hcfs hsu_c
      simp only [List.length_append, List.length_cons, List.length_nil] at this
      omega
    have freshg : ∀ q, (dst ++ [n]) <+: q → q ∉ g.dirs ∧ q ∉ g.files := by
      intro q hq
      exact ⟨fun hmem => pdir_not_under_dstn hok hn_notdone ((hgd q).mp hmem) hq,
        fun hmem => pfile_not_under_dstn hok hn_notdone ((hgf q).mp hmem) hq⟩
    have hg_entry : ∀ q, (q ∈ g.dirs ∨ q ∈ g.files) → src <+: q →
        q ∈ fs₀.dirs ∨ q ∈ fs₀.files := by
      intro q hq hsq
      rcases hq with hq | hq
      · exact Or.inl (pdir_under_src hok ((hgd q).mp hq) hsq)
      · exact Or.inr (pfile_under_src hok ((hgf q).mp hq) hsq).1
    have hreb_eq : ∀ tail : List String,
        rebase (src ++ [n]) (dst ++ [n]) (src ++ n :: tail) =
          rebase src dst (src ++ n :: tail) := by
      intro tail
      rw [rebase_cons]
      unfold rebase
      rw [show src ++ n :: tail = (src ++ [n]) ++ tail by simp, List.drop_left]
      simp
    -- step 1: the recursive call on child n
    rcases hcfs with hcdir | hcfile
    · -- directory child
      have hcg : src ++ [n] ∈ g.dirs := (hgd _).mpr (Or.inl hcdir)
      have hnest_c : ¬ (src ++ [n]) <+: (dst ++ [n]) := by
        intro hp
        rcases prefix_snoc_iff.mp hp with hp' | hp'
        · exact hok.2.2.1 ((src.prefix_append [n]).trans hp')
        · have hsd : src = dst := List.append_cancel_right hp'
          exact (hok.2.1 dst List.prefix_rfl).1 (hsd ▸ hok.1)
      have hsu_of : ∀ q : List String, (src ++ [n]) <+: q → q ≠ src ++ [n] →
          strictUnder src q := by
        intro q h _
        exact strictUnder_child h
      have hWF_c : ∀ q, (q ∈ g.dirs ∨ q ∈ g.files) →
          strictUnder (src ++ [n]) q → q.dropLast ∈ g.dirs := by
        intro q hq hsu
        have hsrcq : src <+: q := (src.prefix_append [n]).trans hsu.1
        have hq₀ := hg_entry q hq hsrcq
        have hsuq : strictUnder src q := strictUnder_child hsu.1
        exact (hgd _).mpr (Or.inl (hok.2.2.2.1 q hq₀ hsuq))
      have hdepth_c : depthOK g (src ++ [n]) m := by
        intro q hq hsu
        have hsrcq : src <+: q := (src.prefix_append [n]).trans hsu.1
        have hq₀ := hg_entry q hq hsrcq
        have hsuq : strictUnder src q := strictUnder_child hsu.1
        have := hdepth q hq₀ hsuq
        simp only [List.length_append, List.length_cons, List.length_nil]
        omega
      obtain ⟨g'', hg''eq, _, hg''f, hg''d, hg''nd⟩ :=
        hIH g (src ++ [n]) (dst ++ [n])
          ⟨hcg, freshg, hnest_c, hWF_c, hgnd⟩ hdepth_c hmpos
      -- the child subtree decomposition used on both sides
      have hdecomp : ∀ r : List String, (src ++ [n]) <+: r →
          ∃ tail, r = src ++ n :: tail := by
        intro r hr
        obtain ⟨mm, tail, hr2⟩ := strictUnder_decomp (strictUnder_child hr)
        have hrm : (src ++ [mm]) <+: r := by
          rw [hr2]
          exact ⟨tail, by simp⟩
        have hm : mm = n := child_prefix_unique hrm hr
        exact ⟨tail, hm ▸ hr2⟩
      have hreb_c : ∀ r : List String, (src ++ [n]) <+: r →
          rebase (src ++ [n]) (dst ++ [n]) r = rebase src dst r := by
        intro r hr
        obtain ⟨tail, rfl⟩ := hdecomp r hr
        exact hreb_eq tail
      have hg''f' : ∀ q, q ∈ g''.files ↔ pfile fs₀ src dst (done ++ [n]) q := by
        intro q
        rw [hg''f q]
        constructor
        · rintro (⟨hqg, hnsu⟩ | ⟨r, hrg, hsur, rfl⟩)
          · rcases (hgf q).mp hqg with ⟨hq₀, hfree⟩ | ⟨r, hr₀, ⟨n', hn', hpr⟩, rfl⟩
            · left
              refine ⟨hq₀, ?_⟩
              intro n' hn'
              rcases List.mem_append.mp hn' with hn' | hn'
              · exact hfree n' hn'
              · rw [List.mem_singleton] at hn'
                replace hn' := hn'.symm
                subst hn'
                intro hcq
                apply hnsu
                refine ⟨hcq, ?_⟩
                rintro rfl
                exact hdisj₀ hcdir hq₀
            · right
              exact ⟨r, hr₀, ⟨n', List.mem_append_left _ hn', hpr⟩, rfl⟩
          · have hr := pfile_under_src hok ((hgf r).mp hrg)
              ((src.prefix_append [n]).trans hsur.1)
            right
            exact ⟨r, hr.1, ⟨n, List.mem_append_right _ (List.mem_singleton.mpr rfl),
              hsur.1⟩, hreb_c r hsur.1⟩
        · rintro (⟨hq₀, hfree⟩ | ⟨r, hr₀, ⟨n', hn', hpr⟩, rfl⟩)
          · left
            refine ⟨(hgf q).mpr (Or.inl ⟨hq₀,
              fun n' hn' => hfree n' (List.mem_append_left _ hn')⟩), ?_⟩
            intro hsu
            exact hfree n (List.mem_append_right _ (List.mem_singleton.mpr rfl)) hsu.1
          · rcases List.mem_append.mp hn' with hn'd | hn'n
            · left
              refine ⟨(hgf _).mpr (Or.inr ⟨r, hr₀, ⟨n', hn'd, hpr⟩, rfl⟩), ?_⟩
              intro hsu
              exact prefix_clash hok.1 hok.2.1 hok.2.2.1
                ((src.prefix_append [n]).trans hsu.1) rebase_under_dst
            · rw [List.mem_singleton] at hn'n
              replace hn'n := hn'n.symm
              subst hn'n
              have hrne : r ≠ src ++ [n] := by
                rintro rfl
                exact hdisj₀ hcdir hr₀
              have hrg : r ∈ g.files := (hgf r).mpr (Or.inl ⟨hr₀, by
                intro n'' hn'' hp
                exact hn_notdone (child_prefix_unique hp hpr ▸ hn'')⟩)
              right
              exact ⟨r, hrg, ⟨hpr, hrne⟩, (hreb_c r hpr).symm⟩
      have hg''d' : ∀ q, q ∈ g''.dirs ↔ pdir fs₀ src dst (done ++ [n]) q := by
        intro q
        rw [hg''d q]
        constructor
        · rintro (hqg | rfl | ⟨r, hrg, hsur, rfl⟩)
          · rcases (hgd q).mp hqg with hq₀ | rfl | ⟨r, hr₀, ⟨n', hn', hpr⟩, rfl⟩
            · exact Or.inl hq₀
            · exact Or.inr (Or.inl rfl)
            · exact Or.inr (Or.inr ⟨r, hr₀,
                ⟨n', List.mem_append_left _ hn', hpr⟩, rfl⟩)
          · -- the freshly created dst ++ [n] is the rebased image of the child
            refine Or.inr (Or.inr ⟨src ++ [n], hcdir,
              ⟨n, List.mem_append_right _ (List.mem_singleton.mpr rfl),
                List.prefix_rfl⟩, ?_⟩)
            rw [show src ++ [n] = src ++ n :: ([] : List String) by simp,
              rebase_cons]
          · have hr₀ : r ∈ fs₀.dirs :=
              pdir_under_src hok ((hgd r).mp hrg)
                ((src.prefix_append [n]).trans hsur.1)
            exact Or.inr (Or.inr ⟨r, hr₀,
              ⟨n, List.mem_append_right _ (List.mem_singleton.mpr rfl), hsur.1⟩,
              hreb_c r hsur.1⟩)
        · rintro (hq₀ | rfl | ⟨r, hr₀, ⟨n', hn', hpr⟩, rfl⟩)
          · exact Or.inl ((hgd q).mpr (Or.inl hq₀))
          · exact Or.inl ((hgd _).mpr (Or.inr (Or.inl rfl)))
          · rcases List.mem_append.mp hn' with hn'd | hn'n
            · exact Or.inl ((hgd _).mpr (Or.inr (Or.inr ⟨r, hr₀, ⟨n', hn'd, hpr⟩,
                rfl⟩)))
            · rw [List.mem_singleton] at hn'n
              replace hn'n := hn'n.symm
              subst hn'n
              by_cases hrc : r = src ++ [n]
              · subst hrc
                refine Or.inr (Or.inl ?_)
                rw [show src ++ [n] = src ++ n :: ([] : List String) by simp,
                  rebase_cons]
              · have hrg : r ∈ g.dirs := (hgd r).mpr (Or.inl hr₀)
                exact Or.inr (Or.inr ⟨r, hrg, ⟨hpr, hrc⟩, (hreb_c r hpr).symm⟩)
      have hdisj' : ∀ n' ∈ rest, n' ∉ done ++ [n] := by
        intro n' hn' hmem
        rcases List.mem_append.mp hmem with h | h
        · exact hdisj n' (List.mem_cons_of_mem n hn') h
        · rw [List.mem_singleton] at h
          exact (List.nodup_cons.mp hnd).1 (h ▸ hn')
      obtain ⟨g', hg'eq, hf', hd', hnd'⟩ :=
        ih (List.nodup_cons.mp hnd).2
          (fun n' hn' => hchild n' (List.mem_cons_of_mem n hn'))
          (done ++ [n]) g'' hdisj' hg''f' hg''d' hg''nd
      have happ : (done ++ [n]) ++ rest = done ++ n :: rest := by simp
      rw [happ] at hf' hd'
      refine ⟨g', ?_, hf', hd', hnd'⟩
      rw [moveChildren]
      simp only [List.concat_eq_append]
      rw [hg''eq]
      exact hg'eq
    · -- file child
      obtain ⟨m', rfl⟩ : ∃ m', m = m' + 1 := ⟨m - 1, by omega⟩
      have hcg : src ++ [n] ∈ g.files := (hgf _).mpr (Or.inl ⟨hcfile, by
        intro n' hn' hp
        exact hn_notdone (child_prefix_unique hp List.prefix_rfl ▸ hn')⟩)
      have hcg_notdir : src ++ [n] ∉ g.dirs := by
        intro hmem
        rcases (hgd _).mp hmem with h | h | ⟨r, hr, _, hreb⟩
        · exact hdisj₀ h hcfile
        · exact (hok.2.1 (src ++ [n]) (by rw [h])).2 hcfile
        · exact (hok.2.1 (src ++ [n]) (by rw [hreb]; exact rebase_under_dst)).2
            hcfile
      have h1 : g.isdir (src ++ [n]) = false := by
        simp only [Bool.eq_false_iff, Ne, isdir_iff]
        exact hcg_notdir
      have h2 : g.isdir (dst ++ [n]) = false := by
        simp only [Bool.eq_false_iff, Ne, isdir_iff]
        exact (freshg _ List.prefix_rfl).1
      have h3 : g.pathExists (dst ++ [n]) = false := by
        simp only [Bool.eq_false_iff, Ne, pathExists_iff]
        rintro (h | h)
        · exact (freshg _ List.prefix_rfl).1 h
        · exact (freshg _ List.prefix_rfl).2 h
      have h4 : g.files.contains (src ++ [n]) = true := contains_path_iff.mpr hcg
      have hstep : MoveFile ren (m' + 1) g (src ++ [n]) (dst ++ [n]) =
          some { g with
            files := (g.files.erase (src ++ [n])).concat (dst ++ [n]) } := by
        rw [MoveFile]
        simp only [h1, h2, h3, Bool.false_eq_true, if_false, FS.moveFile, h4,
          if_true]
      have hgfnd : g.files.Nodup := (List.nodup_append.mp hgnd).2.1
      have hgdnd : g.dirs.Nodup := (List.nodup_append.mp hgnd).1
      have hdisjg := (List.nodup_append.mp hgnd).2.2
      have hrebc : rebase src dst (src ++ [n]) = dst ++ [n] := by
        rw [show src ++ [n] = src ++ n :: ([] : List String) by simp, rebase_cons]
      have hg''f' : ∀ q,
          q ∈ (g.files.erase (src ++ [n])).concat (dst ++ [n]) ↔
            pfile fs₀ src dst (done ++ [n]) q := by
        intro q
        rw [List.concat_eq_append, List.mem_append, hgfnd.mem_erase_iff,
          List.mem_singleton]
        constructor
        · rintro (⟨hne, hqg⟩ | rfl)
          · rcases (hgf q).mp hqg with ⟨hq₀, hfree⟩ | ⟨r, hr₀, ⟨n', hn', hpr⟩, rfl⟩
            · left
              refine ⟨hq₀, ?_⟩
              intro n' hn'
              rcases List.mem_append.mp hn' with hn' | hn'
              · exact hfree n' hn'
              · rw [List.mem_singleton] at hn'
                replace hn' := hn'.symm
                subst hn'
                intro hcq
                exact no_entry_under_file hok hcfile (src.prefix_append [n])
                  (Or.inr hq₀) hcq hne
            · right
              exact ⟨r, hr₀, ⟨n', List.mem_append_left _ hn', hpr⟩, rfl⟩
          · right
            exact ⟨src ++ [n], hcfile,
              ⟨n, List.mem_append_right _ (List.mem_singleton.mpr rfl),
                List.prefix_rfl⟩, hrebc.symm⟩
        · rintro (⟨hq₀, hfree⟩ | ⟨r, hr₀, ⟨n', hn', hpr⟩, rfl⟩)
          · left
            refine ⟨?_, (hgf q).mpr (Or.inl ⟨hq₀,
              fun n' hn' => hfree n' (List.mem_append_left _ hn')⟩)⟩
            rintro rfl
            exact hfree n (List.mem_append_right _ (List.mem_singleton.mpr rfl))
              List.prefix_rfl
          · rcases List.mem_append.mp hn' with hn'd | hn'n
            · left
              refine ⟨?_, (hgf _).mpr (Or.inr ⟨r, hr₀, ⟨n', hn'd, hpr⟩, rfl⟩)⟩
              intro he
              exact (hok.2.1 (src ++ [n])
                (by rw [← he]; exact rebase_under_dst)).2 hcfile
            · rw [List.mem_singleton] at hn'n
              replace hn'n := hn'n.symm
              subst hn'n
              by_cases hrc : r = src ++ [n]
              · subst hrc
                right
                exact hrebc
              · exact (no_entry_under_file hok hcfile
                  (src.prefix_append [n]) (Or.inr hr₀) hpr hrc).elim
      have hg''d' : ∀ q, q ∈ g.dirs ↔ pdir fs₀ src dst (done ++ [n]) q := by
        intro q
        rw [hgd q]
        constructor
        · rintro (hq₀ | rfl | ⟨r, hr₀, ⟨n', hn', hpr⟩, rfl⟩)
          · exact Or.inl hq₀
          · exact Or.inr (Or.inl rfl)
          · exact Or.inr (Or.inr ⟨r, hr₀, ⟨n', List.mem_append_left _ hn', hpr⟩,
              rfl⟩)
        · rintro (hq₀ | rfl | ⟨r, hr₀, ⟨n', hn', hpr⟩, rfl⟩)
          · exact Or.inl hq₀
          · exact Or.inr (Or.inl rfl)
          · rcases List.mem_append.mp hn' with hn'd | hn'n
            · exact Or.inr (Or.inr ⟨r, hr₀, ⟨n', hn'd, hpr⟩, rfl⟩)
            · rw [List.mem_singleton] at hn'n
              replace hn'n := hn'n.symm
              subst hn'n
              by_cases hrc : r = src ++ [n]
              · subst hrc
                exact absurd hr₀ (fun h => hdisj₀ h hcfile)
              · exact (no_entry_under_file hok hcfile
                  (src.prefix_append [n]) (Or.inl hr₀) hpr hrc).elim
      have hdn_new : (dst ++ [n]) ∉ g.dirs ∧ (dst ++ [n]) ∉ g.files :=
        freshg _ List.prefix_rfl
      have hg''nd : (g.dirs ++ (g.files.erase (src ++ [n])).concat
          (dst ++ [n])).Nodup := by
        rw [List.concat_eq_append, List.nodup_append]
        refine ⟨hgdnd, ?_, ?_⟩
        · rw [List.nodup_append]
          refine ⟨hgfnd.erase _, List.nodup_singleton _, ?_⟩
          intro q hq hq'
          rw [List.mem_singleton] at hq'
          subst hq'
          exact hdn_new.2 (List.mem_of_mem_erase hq)
        · intro q hq hq'
          rcases List.mem_append.mp hq' with h | h
          · exact hdisjg hq (List.mem_of_mem_erase h)
          · rw [List.mem_singleton] at h
            subst h
            exact hdn_new.1 hq
      have hdisj' : ∀ n' ∈ rest, n' ∉ done ++ [n] := by
        intro n' hn' hmem
        rcases List.mem_append.mp hmem with h | h
        · exact hdisj n' (List.mem_cons_of_mem n hn') h
        · rw [List.mem_singleton] at h
          exact (List.nodup_cons.mp hnd).1 (h ▸ hn')
      obtain ⟨g', hg'eq, hf', hd', hnd'⟩ :=
        ih (List.nodup_cons.mp hnd).2
          (fun n' hn' => hchild n' (List.mem_cons_of_mem n hn'))
          (done ++ [n])
          { g with files := (g.files.erase (src ++ [n])).concat (dst ++ [n]) }
          hdisj' hg''f' hg''d' hg''nd
      have happ : (done ++ [n]) ++ rest = done ++ n :: rest := by simp
      rw [happ] at hf' hd'
      refine ⟨g', ?_, hf', hd', hnd'⟩
      rw [moveChildren]
      simp only [List.concat_eq_append]
      rw [hstep]
      exact hg'eq

/-- An entry `src ++ nn :: tail` witnesses that `src ++ [nn]` itself exists
(as the entry when `tail = []`, as an ancestor directory otherwise). -/
theorem child_entry {fs : FS} {src dst : List String} (hok : MoveOK fs src dst)
    {nn : String} {tail q : List String}
    (hq : q ∈ fs.dirs ∨ q ∈ fs.files) (he : q = src ++ nn :: tail) :
    src ++ [nn] ∈ fs.dirs ∨ src ++ [nn] ∈ fs.files := by
  subst he
  cases tail with
  | nil => simpa using hq
  | cons t ts =>
    left
    refine ancestor_is_dir hok.2.2.2.1 hok.1 (src ++ nn :: t :: ts).length _
      le_rfl hq (src.prefix_append _) (src ++ [nn]) (src.prefix_append _)
      ⟨t :: ts, by simp⟩ ?_
    intro he2
    have := congrArg List.length he2
    simp at this

theorem MoveFile_spec_all (ren : FS → List String → List String) :
    ∀ fuel : Nat, MoveSpec ren fuel := by
  intro fuel
  induction fuel with
  | zero =>
    intro fs src dst _ _ h0
    exact absurd h0 (Nat.lt_irrefl 0)
  | succ m ihm =>
    intro fs src dst hok hdepth _
    have hsrc := hok.1
    have hfresh := hok.2.1
    have hnest := hok.2.2.1
    have hWF := hok.2.2.2.1
    have hnd := hok.2.2.2.2
    have hisdir : fs.isdir src = true := isdir_iff.mpr hsrc
    have hnotex : fs.pathExists dst = false := by
      simp only [Bool.eq_false_iff, Ne, pathExists_iff]
      rintro (h | h)
      · exact (hfresh dst List.prefix_rfl).1 h
      · exact (hfresh dst List.prefix_rfl).2 h
    have hcnone : childName src dst = none := by
      unfold childName
      rw [if_neg]
      rintro ⟨h1, _⟩
      apply hnest
      rw [← h1]
      exact List.dropLast_prefix dst
    have hlist : (fs.mkdir dst).listdir src = fs.listdir src := by
      unfold FS.mkdir FS.listdir
      simp only [List.concat_eq_append, List.filterMap_append]
      simp [hcnone]
    have hchild : ∀ n ∈ fs.listdir src,
        src ++ [n] ∈ fs.dirs ∨ src ++ [n] ∈ fs.files :=
      fun n hn => mem_listdir_iff.mp hn
    have hLnd : (fs.listdir src).Nodup := listdir_nodup hnd src
    have hmk_files : ∀ q, q ∈ (fs.mkdir dst).files ↔ pfile fs src dst [] q := by
      intro q
      unfold FS.mkdir pfile
      simp
    have hmk_dirs : ∀ q, q ∈ (fs.mkdir dst).dirs ↔ pdir fs src dst [] q := by
      intro q
      unfold FS.mkdir pdir
      simp only [List.concat_eq_append, List.mem_append, List.mem_singleton]
      constructor
      · rintro (h | h)
        · exact Or.inl h
        · exact Or.inr (Or.inl h)
      · rintro (h | h | ⟨r, _, ⟨n, hn, _⟩, _⟩)
        · exact Or.inl h
        · exact Or.inr h
        · exact absurd hn (List.not_mem_nil n)
    have hmknd : ((fs.mkdir dst).dirs ++ (fs.mkdir dst).files).Nodup := by
      unfold FS.mkdir
      simp only [List.concat_eq_append]
      rw [List.nodup_append] at hnd
      obtain ⟨hd, hf, hdj⟩ := hnd
      rw [List.nodup_append]
      refine ⟨?_, hf, ?_⟩
      · rw [List.nodup_append]
        refine ⟨hd, List.nodup_singleton _, ?_⟩
        intro q hq hq'
        rw [List.mem_singleton] at hq'
        replace hq' := hq'.symm
        subst hq'
        exact (hfresh dst List.prefix_rfl).1 hq
      · intro q hq hq'
        rcases List.mem_append.mp hq with h | h
        · exact hdj h hq'
        · rw [List.mem_singleton] at h
          replace h := h.symm
          subst h
          exact (hfresh dst List.prefix_rfl).2 hq'
    obtain ⟨g', hg'eq, hf', hd', hnd'⟩ :=
      moveChildren_spec ren m ihm fs src dst hok hdepth (fs.listdir src) hLnd
        hchild [] (fs.mkdir dst) (fun n _ => List.not_mem_nil n) hmk_files
        hmk_dirs hmknd
    simp only [List.nil_append] at hf' hd'
    refine ⟨g', ?_, (hd' src).mpr (Or.inl hsrc), ?_, ?_, hnd'⟩
    · rw [MoveFile]
      simp only [hisdir, if_true, hnotex, Bool.false_eq_true, if_false, hlist]
      exact hg'eq
    · intro q
      rw [hf' q]
      constructor
      · rintro (⟨hq₀, hfree⟩ | ⟨r, hr₀, ⟨n, _, hpr⟩, rfl⟩)
        · left
          refine ⟨hq₀, ?_⟩
          intro hsu
          obtain ⟨nn, tail, he⟩ := strictUnder_decomp hsu
          have hnn : nn ∈ fs.listdir src :=
            mem_listdir_iff.mpr (child_entry hok (Or.inr hq₀) he)
          exact hfree nn hnn (he ▸ ⟨tail, by simp⟩)
        · right
          exact ⟨r, hr₀, strictUnder_child hpr, rfl⟩
      · rintro (⟨hq₀, hnsu⟩ | ⟨r, hr₀, hsu, rfl⟩)
        · left
          exact ⟨hq₀, fun n _ hp => hnsu (strictUnder_child hp)⟩
        · right
          obtain ⟨nn, tail, he⟩ := strictUnder_decomp hsu
          have hnn : nn ∈ fs.listdir src :=
            mem_listdir_iff.mpr (child_entry hok (Or.inr hr₀) he)
          exact ⟨r, hr₀, ⟨nn, hnn, he ▸ ⟨tail, by simp⟩⟩, rfl⟩
    · intro q
      rw [hd' q]
      constructor
      · rintro (hq₀ | rfl | ⟨r, hr₀, ⟨n, _, hpr⟩, rfl⟩)
        · exact Or.inl hq₀
        · exact Or.inr (Or.inl rfl)
        · exact Or.inr (Or.inr ⟨r, hr₀, strictUnder_child hpr, rfl⟩)
      · rintro (hq₀ | rfl | ⟨r, hr₀, hsu, rfl⟩)
        · exact Or.inl hq₀
        · exact Or.inr (Or.inl rfl)
        · obtain ⟨nn, tail, he⟩ := strictUnder_decomp hsu
          have hnn : nn ∈ fs.listdir src :=
            mem_listdir_iff.mpr (child_entry hok (Or.inl hr₀) he)
          exact Or.inr (Or.inr ⟨r, hr₀, ⟨nn, hnn, he ▸ ⟨tail, by simp⟩⟩, rfl⟩)

/-- C4 (amended): for a directory source (destination fresh and not
nested in the source, store parent-closed and duplicate-free, fuel
exceeding the nesting depth), `MoveFile` succeeds and produces the state
in which every file under the source has been moved under the destination
preserving relative names, the destination directory skeleton has been
created — and no directory has been removed: in particular the source
directory, now empty of files, still exists after the call. -/
theorem moveFile_dir_moves_children_keeps_source
    (ren : FS → List String → List String) (fuel : Nat) (fs : FS)
    (src dst : List String) (hok : MoveOK fs src dst)
    (hdepth : depthOK fs src fuel) (hpos : 0 < fuel) :
    ∃ fs', MoveFile ren fuel fs src dst = some fs' ∧
      src ∈ fs'.dirs ∧
      (∀ q, q ∈ fs'.files ↔
        (q ∈ fs.files ∧ ¬ strictUnder src q) ∨
        (∃ r ∈ fs.files, strictUnder src r ∧ q = rebase src dst r)) ∧
      (∀ q, q ∈ fs'.dirs ↔
        q ∈ fs.dirs ∨ q = dst ∨
        (∃ r ∈ fs.dirs, strictUnder src r ∧ q = rebase src dst r)) ∧
      (fs'.dirs ++ fs'.files).Nodup :=
  MoveFile_spec_all ren fuel fs src dst hok hdepth hpos

/-- Witness for C4 (amended): moving directory `s` (containing file `f`)
to fresh destination `d`. -/
theorem moveFile_dir_moves_children_keeps_source_witness :
    ∃ fs', MoveFile (fun _ p => p) 2 ⟨[["s"]], [["s", "f"]]⟩ ["s"] ["d"] =
        some fs' ∧
      ["s"] ∈ fs'.dirs ∧
      (∀ q, q ∈ fs'.files ↔
        (q ∈ (FS.mk [["s"]] [["s", "f"]]).files ∧ ¬ strictUnder ["s"] q) ∨
        (∃ r ∈ (FS.mk [["s"]] [["s", "f"]]).files, strictUnder ["s"] r ∧
          q = rebase ["s"] ["d"] r)) ∧
      (∀ q, q ∈ fs'.dirs ↔
        q ∈ (FS.mk [["s"]] [["s", "f"]]).dirs ∨ q = ["d"] ∨
        (∃ r ∈ (FS.mk [["s"]] [["s", "f"]]).dirs, strictUnder ["s"] r ∧
          q = rebase ["s"] ["d"] r)) ∧
      (fs'.dirs ++ fs'.files).Nodup := by
  have hfresh : ∀ q, ["d"] <+: q →
      q ∉ (FS.mk [["s"]] [["s", "f"]]).dirs ∧
      q ∉ (FS.mk [["s"]] [["s", "f"]]).files := by
    intro q hq
    constructor
    · intro hm
      simp only [List.mem_singleton] at hm
      subst hm
      obtain ⟨t, ht⟩ := hq
      simp only [List.cons_append, List.cons.injEq] at ht
      exact absurd ht.1 (by decide)
    · intro hm
      simp only [List.mem_singleton] at hm
      subst hm
      obtain ⟨t, ht⟩ := hq
      simp only [List.cons_append, List.cons.injEq] at ht
      exact absurd ht.1 (by decide)
  have hok : MoveOK ⟨[["s"]], [["s", "f"]]⟩ ["s"] ["d"] := by
    refine ⟨by decide, hfresh, ?_, ?_, by decide⟩
    · intro h
      obtain ⟨t, ht⟩ := h
      simp only [List.cons_append, List.cons.injEq] at ht
      exact absurd ht.1 (by decide)
    · intro q hq hsu
      rcases hq with hq | hq
      · simp only [List.mem_singleton] at hq
        subst hq
        exact absurd rfl hsu.2
      · simp only [List.mem_singleton] at hq
        subst hq
        simp
  have hdepth : depthOK ⟨[["s"]], [["s", "f"]]⟩ ["s"] 2 := by
    intro q hq _
    rcases hq with hq | hq <;> simp only [List.mem_singleton] at hq <;>
      subst hq <;> simp
  exact moveFile_dir_moves_children_keeps_source (fun _ p => p) 2
    ⟨[["s"]], [["s", "f"]]⟩ ["s"] ["d"] hok hdepth (by decide)
